import Mathlib

/-!
Verification development for the orchestration layer of the `comically`
comic-conversion pipeline (`src/pipeline.rs`).

The embedding models the two functions of the source file:

* `process_files` (the Pipeline Dispatcher): registers one entity per input
  file, runs each constructed entity through the shared stages, branches on
  the output format, and hands Mobi entities to the supervisor queue.
* `poll_kindlegen` (the Conversion Supervisor): a cooperative loop that
  drains its input queue, spawns external conversion processes, polls the
  in-flight records non-blockingly, and finalizes finished ones.

External collaborators (archive extraction, image processing, cbz/epub
building, the kindlegen subprocess) and the methods of `Comic` that live in
modules outside `src/` are modelled as oracle functions bundled in `Env`,
keyed by the entity id; their success/failure outcome is the only aspect the
orchestration code observes.  The parallel fan-out (`par_bridge`) and the
concurrent supervisor thread are linearized: entities are processed in list
order and the supervisor consumes the queue contents afterwards.  Per-entity
behaviour and the event-ordering facts proved below are insensitive to the
chosen interleaving, and the `ProcessingComplete` event is genuinely the last
event of a batch in every real schedule.
-/

namespace Comically

/-- Target output kind of a batch (`comic::OutputFormat`). -/
inductive OutputFormat
  | Cbz
  | Epub
  | Mobi
deriving DecidableEq, Repr

/-- Modelled from the spec: batch-wide conversion settings (`comic::ComicConfig`),
an immutable snapshot shared by all entities.  Only the target output kind is
inspected by the orchestration layer; the remaining processing options are
opaque to it and omitted. -/
structure ComicConfig where
  output_format : OutputFormat
deriving DecidableEq, Repr

/-- Pipeline stage of an entity (`comic::ComicStage`): extraction,
transformation (image processing), packaging/assembly, binary conversion. -/
inductive ComicStage
  | Extract
  | Process
  | Package
  | Convert
deriving DecidableEq, Repr

/-- Status of an entity (`comic::ComicStatus`).  The in-progress percentage is
an exact small constant in the source (0/50/75/100), so it is carried as a
natural number. -/
inductive ComicStatus
  | Pending
  | InProgress (stage : ComicStage) (percent : Nat)
  | Success
  | Failed (error : String)
deriving DecidableEq, Repr

/-- `Success` and `Failed` are the terminal statuses. -/
def ComicStatus.isTerminal : ComicStatus → Bool
  | .Success => true
  | .Failed _ => true
  | _ => false

/-- Abstraction of `std::path::PathBuf`: the raw textual path together with
the (already lossily-decoded) result of `Path::file_stem`, which is the only
path operation `process_files` performs. -/
structure PathBuf where
  raw : String
  file_stem : Option String
deriving DecidableEq, Repr

/-- The title derived for a file: `file.file_stem().unwrap_or_default().to_string_lossy()`. -/
def titleOf (file : PathBuf) : String :=
  file.file_stem.getD ""

/-- The per-item mutable state (`comic::Comic`).  The event-channel handle is
implicit: emitted events are returned alongside each operation. -/
structure Comic where
  id : Nat
  input : PathBuf
  output_dir : String
  title : String
  config : ComicConfig
  status : ComicStatus
  processed_files : List String
deriving DecidableEq, Repr

/-- Progress events carried on the event channel (`ProgressEvent`). -/
inductive ProgressEvent
  | RegisterComic (id : Nat) (file_name : String)
  | ComicUpdate (id : Nat) (status : ComicStatus)
  | ProcessingComplete
deriving DecidableEq, Repr

/-- Messages on the event channel (`Event`); the orchestration layer only
produces the `Progress` variant. -/
inductive Event
  | Progress (p : ProgressEvent)
deriving DecidableEq, Repr

/-- Result of the non-blocking `try_wait` check on a spawned kindlegen
process: still running, exited (`Ok(Some(_))`), or the check itself errored. -/
inductive TryWait
  | NotDone
  | Done
  | CheckErr (msg : String)
deriving DecidableEq, Repr

/-- Outcomes of every external collaborator call, keyed by the entity id
(ids are unique within a batch, so this loses no generality).  Each field
stands for one fallible call whose implementation lives outside the
orchestration layer:

* `comic_new` — `Comic::new` (opens/validates the input file),
* `unarchive` — `comic_archive::unarchive_comic_iter` (yields the image count),
* `process_images` — `image_processor::process_archive_images`
  (yields the processed-file list),
* `build_cbz` / `build_epub` — `cbz_builder::build_cbz` / `epub_builder::build_epub`,
* `rename_output` — the `std::fs::rename` moving the finished EPUB,
* `create_mobi` — `mobi_converter::create_mobi` (spawns kindlegen),
* `try_wait` — non-blocking check of the spawned process at a given poll cycle,
* `wait` — the final blocking collection of the process result. -/
structure Env where
  comic_new : Nat → Except String Unit
  unarchive : Nat → Except String Nat
  process_images : Nat → Except String (List String)
  build_cbz : Nat → Except String Unit
  build_epub : Nat → Except String Unit
  rename_output : Nat → Except String Unit
  create_mobi : Nat → Except String Unit
  try_wait : Nat → Nat → TryWait
  wait : Nat → Except String Unit

/-! ### Status setters of `Comic`

Modelled from the spec: status transitions are monotonic
(`Pending → InProgress … → Success | Failed`), with no transition out of a
terminal state; every transition is reported through the entity's emission
handle as a `ComicUpdate` event. -/

/-- Modelled from the spec: `Comic::update_status` — move the entity to
`InProgress stage percent` and report it (no-op on a terminal entity). -/
def Comic.update_status (c : Comic) (stage : ComicStage) (percent : Nat) :
    Comic × List Event :=
  if c.status.isTerminal then (c, [])
  else
    ({ c with status := .InProgress stage percent },
     [.Progress (.ComicUpdate c.id (.InProgress stage percent))])

/-- Modelled from the spec: `Comic::stage_completed` — report the stage as
finished (an in-progress update at 100 percent for that stage). -/
def Comic.stage_completed (c : Comic) (stage : ComicStage) : Comic × List Event :=
  c.update_status stage 100

/-- Modelled from the spec: `Comic::success` — mark the entity terminally
successful and report it (no-op on a terminal entity). -/
def Comic.success (c : Comic) : Comic × List Event :=
  if c.status.isTerminal then (c, [])
  else ({ c with status := .Success }, [.Progress (.ComicUpdate c.id .Success)])

/-- Modelled from the spec: marking an entity `Failed {error}` and emitting the
corresponding `ComicUpdate` (no-op on a terminal entity). -/
def Comic.fail (c : Comic) (e : String) : Comic × List Event :=
  if c.status.isTerminal then (c, [])
  else ({ c with status := .Failed e }, [.Progress (.ComicUpdate c.id (.Failed e))])

/-- Modelled from the spec: `Comic::with_try` — run a fallible step against the
entity; mutations and events produced before a failure are kept, and on
failure the entity is marked `Failed` with the originating error.  Returns
`none` on failure (the caller's `?` then short-circuits). -/
def Comic.with_try {α : Type} (c : Comic)
    (f : Comic → Except String α × Comic × List Event) :
    Option α × Comic × List Event :=
  match f c with
  | (.ok a, c1, evs) => (some a, c1, evs)
  | (.error e, c1, evs) =>
      let (c2, evs2) := c1.fail e
      (none, c2, evs ++ evs2)

/-- Modelled from the spec: `Comic::image_processing_start` — record the start
of the transformation stage (progress reporting begins at 0 percent). -/
def Comic.image_processing_start (c : Comic) (_num_images : Nat) : Comic × List Event :=
  c.update_status .Process 0

/-- Modelled from the spec: `Comic::image_processing_complete` — report the
transformation stage as finished. -/
def Comic.image_processing_complete (c : Comic) : Comic × List Event :=
  c.stage_completed .Process

/-- Modelled from the spec: the entity built by a successful `Comic::new` —
fresh `Pending` status and an empty `processed_files` list. -/
def Comic.new (id : Nat) (input : PathBuf) (output_dir : String) (title : String)
    (config : ComicConfig) : Comic :=
  { id := id, input := input, output_dir := output_dir, title := title,
    config := config, status := .Pending, processed_files := [] }

/-! ### The Pipeline Dispatcher (`process_files`) -/

/-- One iteration of the registration pass (`pipeline.rs:40-73`): derive the
title, emit `RegisterComic`, attempt entity construction; on failure emit
`ComicUpdate {Failed}` and discard the file. -/
def registerOne (env : Env) (config : ComicConfig) (output_dir : String)
    (id : Nat) (file : PathBuf) : List Event × Option Comic :=
  let title := titleOf file
  match env.comic_new id with
  | .ok _ =>
      ([.Progress (.RegisterComic id title)],
       some (Comic.new id file output_dir title config))
  | .error e =>
      ([.Progress (.RegisterComic id title),
        .Progress (.ComicUpdate id (.Failed e))],
       none)

/-- The sequential registration pass over the enumerated file list
(`files.into_iter().enumerate().filter_map(..).collect()`), starting at
arrival index `k`. -/
def registerFrom (env : Env) (config : ComicConfig) (output_dir : String) :
    Nat → List PathBuf → List Event × List Comic
  | _, [] => ([], [])
  | k, f :: rest =>
      ((registerOne env config output_dir k f).1 ++
         (registerFrom env config output_dir (k + 1) rest).1,
       (registerOne env config output_dir k f).2.toList ++
         (registerFrom env config output_dir (k + 1) rest).2)

/-- The registration pass of `process_files`, ids assigned by arrival order
starting at 0. -/
def registerPass (env : Env) (config : ComicConfig) (output_dir : String)
    (files : List PathBuf) : List Event × List Comic :=
  registerFrom env config output_dir 0 files

/-- The extraction-plus-transformation step run under `with_try`
(`pipeline.rs:80-93`): unarchive the input, report transformation start,
process the images, report transformation completion; any failure aborts the
rest of the step. -/
def extractStep (env : Env) (c : Comic) :
    Except String (List String) × Comic × List Event :=
  match env.unarchive c.id with
  | .error e => (.error e, c, [])
  | .ok num_images =>
      let (c1, evs1) := c.image_processing_start num_images
      match env.process_images c1.id with
      | .error e => (.error e, c1, evs1)
      | .ok images =>
          let (c2, evs2) := c1.image_processing_complete
          (.ok images, c2, evs1 ++ evs2)

/-- The Cbz branch step (`pipeline.rs:100-109`): packaging stage at 75
percent, build the CBZ, report the stage completed, mark success. -/
def cbzStep (env : Env) (c : Comic) : Except String Unit × Comic × List Event :=
  let (c1, e1) := c.update_status .Package 75
  match env.build_cbz c1.id with
  | .error e => (.error e, c1, e1)
  | .ok _ =>
      let (c2, e2) := c1.stage_completed .Package
      let (c3, e3) := c2.success
      (.ok (), c3, e1 ++ e2 ++ e3)

/-- The Epub branch step (`pipeline.rs:110-125`): packaging stage at 75
percent, build the EPUB, report the stage completed, move the artifact to the
output directory, mark success. -/
def epubStep (env : Env) (c : Comic) : Except String Unit × Comic × List Event :=
  let (c1, e1) := c.update_status .Package 75
  match env.build_epub c1.id with
  | .error e => (.error e, c1, e1)
  | .ok _ =>
      let (c2, e2) := c1.stage_completed .Package
      match env.rename_output c2.id with
      | .error e => (.error e, c2, e1 ++ e2)
      | .ok _ =>
          let (c3, e3) := c2.success
          (.ok (), c3, e1 ++ e2 ++ e3)

/-- The Mobi branch step (`pipeline.rs:126-132`): packaging stage at 50
percent, build the intermediate EPUB, report the stage completed — success is
deliberately *not* marked here. -/
def mobiStep (env : Env) (c : Comic) : Except String Unit × Comic × List Event :=
  let (c1, e1) := c.update_status .Package 50
  match env.build_epub c1.id with
  | .error e => (.error e, c1, e1)
  | .ok _ =>
      let (c2, e2) := c1.stage_completed .Package
      (.ok (), c2, e1 ++ e2)

/-- The per-entity worker body (`pipeline.rs:79-137`): extraction plus
transformation under `with_try`, assignment of `processed_files`, then the
format branch.  Returns the entity's final state, the events it emitted, and
the entity sent to the kindlegen queue when the Mobi branch enqueues it. -/
def processOne (env : Env) (config : ComicConfig) (c0 : Comic) :
    Comic × List Event × Option Comic :=
  match Comic.with_try c0 (extractStep env) with
  | (none, c1, evs) => (c1, evs, none)
  | (some images, c1, evs) =>
      let cA : Comic := { c1 with processed_files := images }
      match config.output_format with
      | .Cbz =>
          let (_, cB, evs2) := Comic.with_try cA (cbzStep env)
          (cB, evs ++ evs2, none)
      | .Epub =>
          let (_, cB, evs2) := Comic.with_try cA (epubStep env)
          (cB, evs ++ evs2, none)
      | .Mobi =>
          match Comic.with_try cA (mobiStep env) with
          | (none, cB, evs2) => (cB, evs ++ evs2, none)
          | (some _, cB, evs2) => (cB, evs ++ evs2, some cB)

/-! ### The Conversion Supervisor (`poll_kindlegen`) -/

/-- An in-flight record (`KindleGenStatus` in the source): the owned entity.
The spawned-process handle is represented by the oracle keyed on the entity
id, and the start timestamp carries no observable information and is
omitted. -/
structure KindleGenStatus where
  comic : Comic
deriving DecidableEq, Repr

/-- State of the supervisor loop: the in-flight records, plus ghost counters
(received from the queue, finalized after a finished check, spawn failures)
used only to state invariants — they do not influence behaviour. -/
structure SupState where
  pending : List KindleGenStatus
  received : Nat
  finalized : Nat
  spawnFailed : Nat
deriving DecidableEq, Repr

/-- The supervisor's initial state: empty in-flight set. -/
def SupState.init : SupState := ⟨[], 0, 0, 0⟩

/-- The spawn step run under `with_try` on a received entity
(`pipeline.rs:165-169`): move it to the conversion stage at 75 percent and
spawn the kindlegen process. -/
def spawnStep (env : Env) (c : Comic) : Except String Unit × Comic × List Event :=
  let (c1, e1) := c.update_status .Convert 75
  match env.create_mobi c1.id with
  | .error e => (.error e, c1, e1)
  | .ok _ => (.ok (), c1, e1)

/-- Handling of one received entity in the drain phase (`pipeline.rs:164-177`):
under `with_try`, move the entity to the conversion stage and spawn
kindlegen; on spawn success push a new in-flight record, on spawn failure the
entity is marked `Failed` (by `with_try`) and never enters the set. -/
def drainOne (env : Env) (st : SupState) (c : Comic) : SupState × List Event :=
  match Comic.with_try c (spawnStep env) with
  | (some _, c1, evs) =>
      ({ st with pending := st.pending ++ [⟨c1⟩], received := st.received + 1 }, evs)
  | (none, _, evs) =>
      ({ st with received := st.received + 1, spawnFailed := st.spawnFailed + 1 }, evs)

/-- The drain phase: consume every entity currently buffered in the queue
(`try_recv` returns them one by one until `Empty`/`Disconnected`). -/
def drainPhase (env : Env) (st : SupState) : List Comic → SupState × List Event
  | [] => (st, [])
  | c :: rest =>
      ((drainPhase env (drainOne env st c).1 rest).1,
       (drainOne env st c).2 ++ (drainPhase env (drainOne env st c).1 rest).2)

/-- The finalization step run under `with_try` on a finished record
(`pipeline.rs:206-213`): block on `wait` for the definitive result; on
success report the conversion stage as completed and mark the entity
`Success`. -/
def waitStep (env : Env) (c : Comic) : Except String Unit × Comic × List Event :=
  match env.wait c.id with
  | .error e => (.error e, c, [])
  | .ok _ =>
      let (c1, e1) := c.stage_completed .Convert
      let (c2, e2) := c1.success
      (.ok (), c2, e1 ++ e2)

/-- Finalization of a finished record (`pipeline.rs:205-214`): the blocking
`wait` on the spawned process under `with_try`. -/
def collectRecord (env : Env) (s : KindleGenStatus) : Comic × List Event :=
  let (_, c1, evs) := Comic.with_try s.comic (waitStep env)
  (c1, evs)

/-- One record in the poll phase (`pipeline.rs:191-215`): a non-blocking check;
`Ok(Some(_))` and a check error both count as done and lead to finalization
(`take` removes the record), `Ok(None)` leaves the record in place. -/
def pollOne (env : Env) (cycle : Nat) (s : KindleGenStatus) :
    Option KindleGenStatus × List Event :=
  match env.try_wait s.comic.id cycle with
  | .NotDone => (some s, [])
  | .Done => (none, (collectRecord env s).2)
  | .CheckErr _ => (none, (collectRecord env s).2)

/-- The poll phase over the whole in-flight set, followed by the
`retain(|s| s.is_some())` compaction: returns the kept records, the emitted
events, and how many records were finalized this cycle. -/
def pollPhase (env : Env) (cycle : Nat) :
    List KindleGenStatus → List KindleGenStatus × List Event × Nat
  | [] => ([], [], 0)
  | s :: rest =>
      match pollOne env cycle s with
      | (some s1, evs) =>
          (s1 :: (pollPhase env cycle rest).1,
           evs ++ (pollPhase env cycle rest).2.1,
           (pollPhase env cycle rest).2.2)
      | (none, evs) =>
          ((pollPhase env cycle rest).1,
           evs ++ (pollPhase env cycle rest).2.1,
           (pollPhase env cycle rest).2.2 + 1)

/-- One outer iteration of the supervisor loop at cycle `n`.  `arrive n` is
the list of entities buffered in the queue since the previous drain, and the
queue reports `Disconnected` (sender dropped) from cycle `closeAt` on.  After
the drain, `Disconnected` with an empty in-flight set breaks the outer loop
(`break 'outer`), skipping the poll phase; otherwise the poll phase runs and
the loop continues (the idle sleep has no observable effect and is omitted). -/
def supCycle (env : Env) (arrive : Nat → List Comic) (closeAt : Nat) (n : Nat)
    (st : SupState) : SupState × List Event × Bool :=
  let st1 := (drainPhase env st (arrive n)).1
  let evsD := (drainPhase env st (arrive n)).2
  if decide (closeAt ≤ n) && st1.pending.isEmpty then
    (st1, evsD, true)
  else
    let pp := pollPhase env n st1.pending
    ({ st1 with pending := pp.1, finalized := st1.finalized + pp.2.2 },
     evsD ++ pp.2.1, false)

/-- Up to `fuel` iterations of the supervisor loop starting at cycle `n`.
The boolean records whether the loop exited within the budget. -/
def supRunN (env : Env) (arrive : Nat → List Comic) (closeAt : Nat) :
    Nat → Nat → SupState → SupState × List Event × Bool
  | 0, _, st => (st, [], false)
  | fuel + 1, n, st =>
      let c := supCycle env arrive closeAt n st
      if c.2.2 then (c.1, c.2.1, true)
      else
        ((supRunN env arrive closeAt fuel (n + 1) c.1).1,
         c.2.1 ++ (supRunN env arrive closeAt fuel (n + 1) c.1).2.1,
         (supRunN env arrive closeAt fuel (n + 1) c.1).2.2)

/-- The kindlegen thread spawned by `process_files` for Mobi batches
(`pipeline.rs:28-34`): run `poll_kindlegen` and, once it returns, send the
single `ProcessingComplete` event. -/
def kindlegenThread (env : Env) (arrive : Nat → List Comic) (closeAt : Nat)
    (fuel : Nat) : List Event × Bool :=
  let r := supRunN env arrive closeAt fuel 0 SupState.init
  (if r.2.2 then r.2.1 ++ [.Progress .ProcessingComplete] else r.2.1, r.2.2)

/-- The arrival schedule of the kindlegen queue in a linearized batch run:
all entities the workers enqueued are buffered when the supervisor drains,
and nothing arrives afterwards (the sender is dropped once the fan-out ends). -/
def batchArrive (sent : List Comic) : Nat → List Comic :=
  fun m => if m = 0 then sent else []

/-- A whole batch run of `process_files`, linearized: the sequential
registration pass, the worker fan-out over the constructed entities, then —
depending on the output format — either the dispatcher's own
`ProcessingComplete` (Cbz/Epub, `pipeline.rs:140-147`) or the kindlegen
thread consuming the queued entities, whose queue is closed once the fan-out
has finished (the sender is dropped when `process_files` returns).  The
boolean records whether the batch completed (for Mobi: whether the
supervisor loop exited within `fuel` cycles). -/
def batchRun (env : Env) (config : ComicConfig) (output_dir : String)
    (files : List PathBuf) (fuel : Nat) : List Event × Bool :=
  let regEvents := (registerPass env config output_dir files).1
  let comics := (registerPass env config output_dir files).2
  let results := comics.map (processOne env config)
  let workerEvents := results.flatMap (fun r => r.2.1)
  let sent := results.filterMap (fun r => r.2.2)
  match config.output_format with
  | .Mobi =>
      let k := kindlegenThread env (batchArrive sent) 0 fuel
      (regEvents ++ workerEvents ++ k.1, k.2)
  | _ =>
      (regEvents ++ workerEvents ++ [.Progress .ProcessingComplete], true)

/-! ### Event observers -/

/-- The entity id an event refers to (`ProcessingComplete` refers to none). -/
def Event.idOf : Event → Option Nat
  | .Progress (.RegisterComic i _) => some i
  | .Progress (.ComicUpdate i _) => some i
  | .Progress .ProcessingComplete => none

/-- Whether an event is the batch-completion signal. -/
def Event.isPC : Event → Bool
  | .Progress .ProcessingComplete => true
  | _ => false

/-- Whether an event is a registration event. -/
def Event.isReg : Event → Bool
  | .Progress (.RegisterComic _ _) => true
  | _ => false

/-- The subtrace of events referring to entity `i`. -/
def eventsFor (i : Nat) (tr : List Event) : List Event :=
  tr.filter (fun e => e.idOf = some i)

/-- The `(id, file_name)` pairs of the registration events of a trace, in
order. -/
def registerEntries (tr : List Event) : List (Nat × String) :=
  tr.filterMap (fun e =>
    match e with
    | .Progress (.RegisterComic i t) => some (i, t)
    | _ => none)

/-- Every event of the list is a `ComicUpdate` for entity `i`. -/
def emitsFor (i : Nat) (evs : List Event) : Prop :=
  ∀ e ∈ evs, ∃ s, e = .Progress (.ComicUpdate i s)

/-- The list contains a terminal status update for entity `i`. -/
def hasTerminalFor (i : Nat) (evs : List Event) : Prop :=
  ∃ s, s.isTerminal = true ∧ Event.Progress (.ComicUpdate i s) ∈ evs

/-! ### Shape lemmas for the status setters -/

/-- Shape contract of a `Comic`-transforming step relative to a base entity:
the id and the `processed_files` list are untouched and all emitted events
are updates for that entity. -/
def shapeOk (c : Comic) (r : Comic × List Event) : Prop :=
  r.1.id = c.id ∧ r.1.processed_files = c.processed_files ∧ emitsFor c.id r.2

/-- Shape contract for a `with_try` closure body. -/
def stepShape {α : Type} (c : Comic) (r : Except String α × Comic × List Event) :
    Prop :=
  r.2.1.id = c.id ∧ r.2.1.processed_files = c.processed_files ∧ emitsFor c.id r.2.2

/-- The amended bookkeeping identity of the supervisor: in-flight records
plus finalizations plus spawn failures account exactly for every item
received from the queue. -/
def SupState.accounted (st : SupState) : Prop :=
  st.pending.length + st.finalized + st.spawnFailed = st.received

/-- No `Success` status update occurs in the list. -/
def noSuccessIn (evs : List Event) : Prop :=
  ∀ i, Event.Progress (.ComicUpdate i .Success) ∉ evs

/-! ### Concrete fixtures used to instantiate the theorems -/

/-- An oracle on which every collaborator call succeeds. -/
def envW : Env where
  comic_new := fun _ => .ok ()
  unarchive := fun _ => .ok 2
  process_images := fun _ => .ok ["page1.jpg", "page2.jpg"]
  build_cbz := fun _ => .ok ()
  build_epub := fun _ => .ok ()
  rename_output := fun _ => .ok ()
  create_mobi := fun _ => .ok ()
  try_wait := fun _ _ => .Done
  wait := fun _ => .ok ()

/-- A sample input file and the entity built for it. -/
def fileW : PathBuf := ⟨"batman.cbz", some "batman"⟩

def comicW : Comic := Comic.new 0 fileW "out" "batman" ⟨OutputFormat.Mobi⟩

/-- A path with no file stem (e.g. `/` or a path ending in `..`). -/
def fileNoStem : PathBuf := ⟨"/", none⟩

/-- An oracle whose kindlegen spawn always fails. -/
def envSpawnFail : Env := { envW with create_mobi := fun _ => .error "spawn failed" }

/-- An oracle whose blocking `wait` reports an error, with the check itself
also erroring. -/
def envWaitErr : Env :=
  { envW with try_wait := fun _ _ => .CheckErr "check failed",
              wait := fun _ => .error "kindlegen exited with failure" }

/-- An already-successful record, to exercise terminal-status preservation. -/
def recSuccess : KindleGenStatus := ⟨{ comicW with status := .Success }⟩

/-- A still-pending record. -/
def recW : KindleGenStatus := ⟨{ comicW with status := .InProgress .Convert 75 }⟩

/-- Arrival schedules for the supervisor fixtures. -/
def arriveNone : Nat → List Comic := fun _ => []

def arriveOne : Nat → List Comic := fun m => if m = 0 then [comicW] else []

/-- An oracle on which entity construction fails for the first file. -/
def envNewFail : Env :=
  { envW with comic_new := fun i => if i = 0 then .error "bad archive" else .ok () }

/-- An oracle on which archive extraction fails. -/
def envUnarchiveFail : Env :=
  { envW with unarchive := fun _ => .error "corrupt archive" }

/-- An oracle on which image processing fails. -/
def envImagesFail : Env :=
  { envW with process_images := fun _ => .error "decode failed" }

/-- Freshly constructed entities for the worker fixtures. -/
def comicCbz : Comic := Comic.new 0 fileW "out" "batman" ⟨OutputFormat.Cbz⟩

def comicMobi : Comic := Comic.new 0 fileW "out" "batman" ⟨OutputFormat.Mobi⟩

theorem emitsFor_nil (i : Nat) : emitsFor i [] := by
  intro e he
  cases he

theorem emitsFor_append {i : Nat} {a b : List Event} (ha : emitsFor i a)
    (hb : emitsFor i b) : emitsFor i (a ++ b) := by
  intro e he
  rcases List.mem_append.mp he with h | h
  · exact ha e h
  · exact hb e h

theorem emitsFor_single (i : Nat) (s : ComicStatus) :
    emitsFor i [.Progress (.ComicUpdate i s)] := by
  intro e he
  rcases List.mem_singleton.mp he with rfl
  exact ⟨s, rfl⟩

theorem hasTerminalFor_appendL {i : Nat} {a : List Event} (b : List Event)
    (h : hasTerminalFor i a) : hasTerminalFor i (a ++ b) := by
  obtain ⟨s, hs, hm⟩ := h
  exact ⟨s, hs, List.mem_append.mpr (Or.inl hm)⟩

theorem hasTerminalFor_appendR (a : List Event) {i : Nat} {b : List Event}
    (h : hasTerminalFor i b) : hasTerminalFor i (a ++ b) := by
  obtain ⟨s, hs, hm⟩ := h
  exact ⟨s, hs, List.mem_append.mpr (Or.inr hm)⟩

theorem shapeOk_self (c : Comic) : shapeOk c (c, []) :=
  ⟨rfl, rfl, emitsFor_nil _⟩

theorem shapeOk_comp {c c1 c2 : Comic} {evs1 evs2 : List Event}
    (h1 : shapeOk c (c1, evs1)) (h2 : shapeOk c1 (c2, evs2)) :
    shapeOk c (c2, evs1 ++ evs2) := by
  obtain ⟨hid1, hpf1, he1⟩ := h1
  obtain ⟨hid2, hpf2, he2⟩ := h2
  exact ⟨hid2.trans hid1, hpf2.trans hpf1, emitsFor_append he1 (hid1 ▸ he2)⟩

theorem update_status_shape (c : Comic) (stage : ComicStage) (p : Nat) :
    shapeOk c (c.update_status stage p) := by
  unfold Comic.update_status
  split
  · exact shapeOk_self c
  · exact ⟨rfl, rfl, emitsFor_single _ _⟩

theorem stage_completed_shape (c : Comic) (stage : ComicStage) :
    shapeOk c (c.stage_completed stage) :=
  update_status_shape c stage 100

theorem success_shape (c : Comic) : shapeOk c c.success := by
  unfold Comic.success
  split
  · exact shapeOk_self c
  · exact ⟨rfl, rfl, emitsFor_single _ _⟩

theorem fail_shape (c : Comic) (e : String) : shapeOk c (c.fail e) := by
  unfold Comic.fail
  split
  · exact shapeOk_self c
  · exact ⟨rfl, rfl, emitsFor_single _ _⟩

theorem image_processing_start_shape (c : Comic) (n : Nat) :
    shapeOk c (c.image_processing_start n) :=
  update_status_shape c .Process 0

theorem image_processing_complete_shape (c : Comic) :
    shapeOk c c.image_processing_complete :=
  stage_completed_shape c .Process

theorem with_try_shape {α : Type} (c : Comic)
    (f : Comic → Except String α × Comic × List Event)
    (hf : stepShape c (f c)) :
    shapeOk c ((c.with_try f).2.1, (c.with_try f).2.2) := by
  rcases hr : f c with ⟨r, c1, evs⟩
  rw [hr] at hf
  obtain ⟨hid, hpf, hevs⟩ := hf
  simp only at hid hpf hevs
  cases r with
  | ok a =>
      simp only [Comic.with_try, hr]
      exact ⟨hid, hpf, hevs⟩
  | error e =>
      have hfail := fail_shape c1 e
      rcases hfl : c1.fail e with ⟨c2, evs2⟩
      rw [hfl] at hfail
      obtain ⟨hid2, hpf2, hevs2⟩ := hfail
      simp only [Comic.with_try, hr, hfl]
      exact ⟨hid2.trans hid, hpf2.trans hpf,
        emitsFor_append hevs (hid ▸ hevs2)⟩

theorem extractStep_shape (env : Env) (c : Comic) : stepShape c (extractStep env c) := by
  cases h1 : env.unarchive c.id with
  | error e => simp only [extractStep, h1]; exact ⟨rfl, rfl, emitsFor_nil _⟩
  | ok n =>
      rcases hi1 : c.image_processing_start n with ⟨c1, evs1⟩
      have hs1 := image_processing_start_shape c n
      rw [hi1] at hs1
      obtain ⟨hid1, hpf1, he1⟩ := hs1
      cases h2 : env.process_images c1.id with
      | error e =>
          simp only [extractStep, h1, hi1, h2]
          exact ⟨hid1, hpf1, he1⟩
      | ok images =>
          rcases hi2 : c1.image_processing_complete with ⟨c2, evs2⟩
          have hs2 := image_processing_complete_shape c1
          rw [hi2] at hs2
          obtain ⟨hid2, hpf2, he2⟩ := hs2
          simp only [extractStep, h1, hi1, h2, hi2]
          exact ⟨hid2.trans hid1, hpf2.trans hpf1,
            emitsFor_append he1 (hid1 ▸ he2)⟩

theorem cbzStep_shape (env : Env) (c : Comic) : stepShape c (cbzStep env c) := by
  rcases hu : c.update_status .Package 75 with ⟨c1, e1⟩
  have hs1 := update_status_shape c .Package 75
  rw [hu] at hs1
  obtain ⟨hid1, hpf1, he1⟩ := hs1
  cases h1 : env.build_cbz c1.id with
  | error e =>
      simp only [cbzStep, hu, h1]
      exact ⟨hid1, hpf1, he1⟩
  | ok _ =>
      rcases hc : c1.stage_completed .Package with ⟨c2, e2⟩
      have hs2 := stage_completed_shape c1 .Package
      rw [hc] at hs2
      obtain ⟨hid2, hpf2, he2⟩ := hs2
      rcases hsu : c2.success with ⟨c3, e3⟩
      have hs3 := success_shape c2
      rw [hsu] at hs3
      obtain ⟨hid3, hpf3, he3⟩ := hs3
      simp only [cbzStep, hu, h1, hc, hsu]
      refine ⟨(hid3.trans hid2).trans hid1, (hpf3.trans hpf2).trans hpf1, ?_⟩
      exact emitsFor_append (emitsFor_append he1 (hid1 ▸ he2))
        ((hid2.trans hid1) ▸ he3)

theorem epubStep_shape (env : Env) (c : Comic) : stepShape c (epubStep env c) := by
  rcases hu : c.update_status .Package 75 with ⟨c1, e1⟩
  have hs1 := update_status_shape c .Package 75
  rw [hu] at hs1
  obtain ⟨hid1, hpf1, he1⟩ := hs1
  cases h1 : env.build_epub c1.id with
  | error e =>
      simp only [epubStep, hu, h1]
      exact ⟨hid1, hpf1, he1⟩
  | ok _ =>
      rcases hc : c1.stage_completed .Package with ⟨c2, e2⟩
      have hs2 := stage_completed_shape c1 .Package
      rw [hc] at hs2
      obtain ⟨hid2, hpf2, he2⟩ := hs2
      cases h2 : env.rename_output c2.id with
      | error e =>
          simp only [epubStep, hu, h1, hc, h2]
          exact ⟨hid2.trans hid1, hpf2.trans hpf1,
            emitsFor_append he1 (hid1 ▸ he2)⟩
      | ok _ =>
          rcases hsu : c2.success with ⟨c3, e3⟩
          have hs3 := success_shape c2
          rw [hsu] at hs3
          obtain ⟨hid3, hpf3, he3⟩ := hs3
          simp only [epubStep, hu, h1, hc, h2, hsu]
          refine ⟨(hid3.trans hid2).trans hid1, (hpf3.trans hpf2).trans hpf1, ?_⟩
          exact emitsFor_append (emitsFor_append he1 (hid1 ▸ he2))
            ((hid2.trans hid1) ▸ he3)

theorem mobiStep_shape (env : Env) (c : Comic) : stepShape c (mobiStep env c) := by
  rcases hu : c.update_status .Package 50 with ⟨c1, e1⟩
  have hs1 := update_status_shape c .Package 50
  rw [hu] at hs1
  obtain ⟨hid1, hpf1, he1⟩ := hs1
  cases h1 : env.build_epub c1.id with
  | error e =>
      simp only [mobiStep, hu, h1]
      exact ⟨hid1, hpf1, he1⟩
  | ok _ =>
      rcases hc : c1.stage_completed .Package with ⟨c2, e2⟩
      have hs2 := stage_completed_shape c1 .Package
      rw [hc] at hs2
      obtain ⟨hid2, hpf2, he2⟩ := hs2
      simp only [mobiStep, hu, h1, hc]
      exact ⟨hid2.trans hid1, hpf2.trans hpf1,
        emitsFor_append he1 (hid1 ▸ he2)⟩

theorem spawnStep_shape (env : Env) (c : Comic) : stepShape c (spawnStep env c) := by
  rcases hu : c.update_status .Convert 75 with ⟨c1, e1⟩
  have hs1 := update_status_shape c .Convert 75
  rw [hu] at hs1
  obtain ⟨hid1, hpf1, he1⟩ := hs1
  cases h1 : env.create_mobi c1.id with
  | error e =>
      simp only [spawnStep, hu, h1]
      exact ⟨hid1, hpf1, he1⟩
  | ok _ =>
      simp only [spawnStep, hu, h1]
      exact ⟨hid1, hpf1, he1⟩

theorem waitStep_shape (env : Env) (c : Comic) : stepShape c (waitStep env c) := by
  cases h1 : env.wait c.id with
  | error e =>
      simp only [waitStep, h1]
      exact ⟨rfl, rfl, emitsFor_nil _⟩
  | ok _ =>
      rcases hc : c.stage_completed .Convert with ⟨c1, e1⟩
      have hs1 := stage_completed_shape c .Convert
      rw [hc] at hs1
      obtain ⟨hid1, hpf1, he1⟩ := hs1
      rcases hsu : c1.success with ⟨c2, e2⟩
      have hs2 := success_shape c1
      rw [hsu] at hs2
      obtain ⟨hid2, hpf2, he2⟩ := hs2
      simp only [waitStep, h1, hc, hsu]
      exact ⟨hid2.trans hid1, hpf2.trans hpf1,
        emitsFor_append he1 (hid1 ▸ he2)⟩

/-- Shape of the whole worker body: the id is preserved, every emitted event
is an update for that entity, and a queued entity carries the same id. -/
theorem processOne_shape (env : Env) (config : ComicConfig) (c : Comic) :
    (processOne env config c).1.id = c.id ∧
    emitsFor c.id (processOne env config c).2.1 ∧
    (∀ c', (processOne env config c).2.2 = some c' → c'.id = c.id) := by
  have hex := with_try_shape c (extractStep env) (extractStep_shape env c)
  rcases hwt : Comic.with_try c (extractStep env) with ⟨r, c1, evs⟩
  rw [hwt] at hex
  obtain ⟨hid1, _hpf1, he1⟩ := hex
  simp only at hid1 he1
  cases r with
  | none =>
      simp only [processOne, hwt]
      exact ⟨hid1, he1, fun c' h => by cases h⟩
  | some images =>
      have hcA : ({ c1 with processed_files := images } : Comic).id = c.id := hid1
      cases hfmt : config.output_format with
      | Cbz =>
          have hb := with_try_shape { c1 with processed_files := images }
            (cbzStep env) (cbzStep_shape env _)
          rcases hwb : Comic.with_try { c1 with processed_files := images }
            (cbzStep env) with ⟨rb, cB, evs2⟩
          rw [hwb] at hb
          obtain ⟨hidB, _hpfB, heB⟩ := hb
          simp only at hidB heB
          simp only [processOne, hwt, hfmt, hwb]
          exact ⟨hidB.trans hcA,
            emitsFor_append he1 (hcA ▸ heB), fun c' h => by cases h⟩
      | Epub =>
          have hb := with_try_shape { c1 with processed_files := images }
            (epubStep env) (epubStep_shape env _)
          rcases hwb : Comic.with_try { c1 with processed_files := images }
            (epubStep env) with ⟨rb, cB, evs2⟩
          rw [hwb] at hb
          obtain ⟨hidB, _hpfB, heB⟩ := hb
          simp only at hidB heB
          simp only [processOne, hwt, hfmt, hwb]
          exact ⟨hidB.trans hcA,
            emitsFor_append he1 (hcA ▸ heB), fun c' h => by cases h⟩
      | Mobi =>
          have hb := with_try_shape { c1 with processed_files := images }
            (mobiStep env) (mobiStep_shape env _)
          rcases hwb : Comic.with_try { c1 with processed_files := images }
            (mobiStep env) with ⟨rb, cB, evs2⟩
          rw [hwb] at hb
          obtain ⟨hidB, _hpfB, heB⟩ := hb
          simp only at hidB heB
          cases rb with
          | none =>
              simp only [processOne, hwt, hfmt, hwb]
              exact ⟨hidB.trans hcA,
                emitsFor_append he1 (hcA ▸ heB), fun c' h => by cases h⟩
          | some _ =>
              simp only [processOne, hwt, hfmt, hwb]
              refine ⟨hidB.trans hcA, emitsFor_append he1 (hcA ▸ heB), ?_⟩
              intro c' h
              cases h
              exact hidB.trans hcA

/-! ### Registration-pass lemmas -/

theorem registerEntries_append (a b : List Event) :
    registerEntries (a ++ b) = registerEntries a ++ registerEntries b :=
  List.filterMap_append a b _

theorem eventsFor_append_eq (i : Nat) (a b : List Event) :
    eventsFor i (a ++ b) = eventsFor i a ++ eventsFor i b :=
  List.filter_append _ _

theorem registerOne_entries (env : Env) (config : ComicConfig) (out : String)
    (k : Nat) (f : PathBuf) :
    registerEntries (registerOne env config out k f).1 = [(k, titleOf f)] := by
  cases h : env.comic_new k <;> simp [registerOne, registerEntries, h]

/-- The registration events of the sequential pass carry exactly the arrival
indices paired with the derived titles, in input order. -/
theorem registerFrom_entries (env : Env) (config : ComicConfig) (out : String)
    (files : List PathBuf) : ∀ k,
    registerEntries (registerFrom env config out k files).1 =
      List.zip (List.range' k files.length) (files.map titleOf) := by
  induction files with
  | nil => intro k; simp [registerFrom, registerEntries]
  | cons f rest ih =>
      intro k
      simp only [registerFrom, registerEntries_append, registerOne_entries, ih,
        List.map_cons, List.length_cons]
      rw [List.range'_succ k rest.length 1]
      simp [List.zip_cons_cons]

/-- Characterization of the entities constructed by the registration pass:
each comes from the file at its arrival index, constructed by `Comic.new`,
and only for files whose construction oracle succeeded. -/
theorem registerFrom_comics (env : Env) (config : ComicConfig) (out : String)
    (files : List PathBuf) : ∀ k, ∀ c ∈ (registerFrom env config out k files).2,
      k ≤ c.id ∧ c.id < k + files.length ∧ env.comic_new c.id = .ok () ∧
        ∃ f, files[c.id - k]? = some f ∧
          c = Comic.new c.id f out (titleOf f) config := by
  induction files with
  | nil => intro k c hc; simp [registerFrom] at hc
  | cons f rest ih =>
      intro k c hc
      simp only [registerFrom] at hc
      rcases List.mem_append.mp hc with h | h
      · cases hnew : env.comic_new k with
        | ok u =>
            cases u
            simp only [registerOne, hnew, Option.toList_some, List.mem_singleton] at h
            subst h
            have hid : (Comic.new k f out (titleOf f) config).id = k := rfl
            simp only [hid]
            refine ⟨Nat.le_refl _, by simp only [List.length_cons]; omega, hnew, f,
              by simp, rfl⟩
        | error e =>
            simp [registerOne, hnew] at h
      · have hr := ih (k + 1) c h
        obtain ⟨hk, hlt, hok, f', hf', hc'⟩ := hr
        refine ⟨by omega, by simp only [List.length_cons]; omega, hok, f', ?_, hc'⟩
        have hidx : c.id - k = (c.id - (k + 1)) + 1 := by omega
        rw [hidx, List.getElem?_cons_succ]
        exact hf'

/-- Every successfully constructible file yields its entity in the
registration pass. -/
theorem registerFrom_comics_mem (env : Env) (config : ComicConfig) (out : String)
    (files : List PathBuf) : ∀ k j f, files[j]? = some f →
      env.comic_new (k + j) = .ok () →
      Comic.new (k + j) f out (titleOf f) config ∈
        (registerFrom env config out k files).2 := by
  induction files with
  | nil => intro k j f hf; simp at hf
  | cons f0 rest ih =>
      intro k j f hf hok
      cases j with
      | zero =>
          rw [List.getElem?_cons_zero] at hf
          cases hf
          rw [Nat.add_zero] at hok
          simp [registerFrom, registerOne, hok]
      | succ j' =>
          rw [List.getElem?_cons_succ] at hf
          have hok' : env.comic_new (k + 1 + j') = .ok () := by
            rw [show k + 1 + j' = k + (j' + 1) by omega]
            exact hok
          have := ih (k + 1) j' f hf hok'
          simp only [registerFrom, List.mem_append]
          right

          rw [show k + (j' + 1) = k + 1 + j' by omega]
          exact this

theorem registerOne_eventsFor_ne (env : Env) (config : ComicConfig) (out : String)
    (k : Nat) (f : PathBuf) (i : Nat) (h : i ≠ k) :
    eventsFor i (registerOne env config out k f).1 = [] := by
  cases hnew : env.comic_new k <;>
    simp [registerOne, hnew, eventsFor, Event.idOf, h] <;> omega

theorem registerOne_eventsFor_self (env : Env) (config : ComicConfig) (out : String)
    (k : Nat) (f : PathBuf) :
    eventsFor k (registerOne env config out k f).1 = (registerOne env config out k f).1 := by
  cases hnew : env.comic_new k <;>
    simp [registerOne, hnew, eventsFor, Event.idOf]

/-- Registration events for an id outside the pass's index range are absent. -/
theorem registerFrom_eventsFor_out (env : Env) (config : ComicConfig) (out : String)
    (files : List PathBuf) : ∀ k i, (i < k ∨ k + files.length ≤ i) →
      eventsFor i (registerFrom env config out k files).1 = [] := by
  induction files with
  | nil => intro k i _; simp [registerFrom, eventsFor]
  | cons f rest ih =>
      intro k i hrange
      simp only [List.length_cons] at hrange
      simp only [registerFrom, eventsFor_append_eq]
      rw [registerOne_eventsFor_ne env config out k f i (by omega),
        ih (k + 1) i (by omega)]
      rfl

/-- The events of the registration pass that refer to arrival index `k + j`
are exactly the block emitted for the file at position `j`. -/
theorem registerFrom_eventsFor_mem (env : Env) (config : ComicConfig) (out : String)
    (files : List PathBuf) : ∀ k j f, files[j]? = some f →
      eventsFor (k + j) (registerFrom env config out k files).1 =
        (registerOne env config out (k + j) f).1 := by
  induction files with
  | nil => intro k j f hf; simp at hf
  | cons f0 rest ih =>
      intro k j f hf
      simp only [registerFrom, eventsFor_append_eq]
      cases j with
      | zero =>
          rw [List.getElem?_cons_zero] at hf
          cases hf
          rw [Nat.add_zero, registerOne_eventsFor_self,
            registerFrom_eventsFor_out env config out rest (k + 1) k (by omega)]
          simp
      | succ j' =>
          rw [List.getElem?_cons_succ] at hf
          rw [registerOne_eventsFor_ne env config out k f0 (k + (j' + 1)) (by omega)]
          have := ih (k + 1) j' f hf
          rw [show k + (j' + 1) = k + 1 + j' by omega]
          rw [this]
          rfl

/-! ### Supervisor lemmas: drain phase -/

theorem update_status_isTerminal (c : Comic) (stage : ComicStage) (p : Nat) :
    ((c.update_status stage p).1).status.isTerminal = c.status.isTerminal := by
  unfold Comic.update_status
  split
  · rfl
  · next h => simp [ComicStatus.isTerminal]; simpa using h

theorem update_status_nonterm (c : Comic) (stage : ComicStage) (p : Nat)
    (h : c.status.isTerminal = false) :
    c.update_status stage p =
      ({ c with status := .InProgress stage p },
       [.Progress (.ComicUpdate c.id (.InProgress stage p))]) := by
  unfold Comic.update_status
  rw [h]
  simp

theorem fail_nonterm (c : Comic) (e : String) (h : c.status.isTerminal = false) :
    c.fail e =
      ({ c with status := .Failed e }, [.Progress (.ComicUpdate c.id (.Failed e))]) := by
  unfold Comic.fail
  rw [h]
  simp

theorem success_nonterm (c : Comic) (h : c.status.isTerminal = false) :
    c.success = ({ c with status := .Success }, [.Progress (.ComicUpdate c.id .Success)]) := by
  unfold Comic.success
  rw [h]
  simp

/-- On spawn success the drain step appends exactly one new in-flight record,
holding the entity moved to the conversion stage. -/
theorem drainOne_ok (env : Env) (st : SupState) (c : Comic)
    (h : env.create_mobi c.id = .ok ()) :
    drainOne env st c =
      ({ st with pending := st.pending ++ [⟨(c.update_status .Convert 75).1⟩],
                 received := st.received + 1 },
       (c.update_status .Convert 75).2) := by
  have hid : ((c.update_status .Convert 75).1).id = c.id :=
    (update_status_shape c .Convert 75).1
  unfold drainOne Comic.with_try spawnStep
  rcases hu : c.update_status .Convert 75 with ⟨c1, e1⟩
  rw [hu] at hid
  simp only at hid
  simp only [hid, h]

/-- On spawn failure the drain step leaves the in-flight set untouched and
the entity is marked `Failed`. -/
theorem drainOne_err (env : Env) (st : SupState) (c : Comic) (e : String)
    (h : env.create_mobi c.id = .error e) :
    drainOne env st c =
      ({ st with received := st.received + 1, spawnFailed := st.spawnFailed + 1 },
       (c.update_status .Convert 75).2 ++ ((c.update_status .Convert 75).1.fail e).2) := by
  have hid : ((c.update_status .Convert 75).1).id = c.id :=
    (update_status_shape c .Convert 75).1
  unfold drainOne Comic.with_try spawnStep
  rcases hu : c.update_status .Convert 75 with ⟨c1, e1⟩
  rw [hu] at hid
  simp only at hid
  rcases hf : c1.fail e with ⟨c2, e2⟩
  simp only [hid, h, hf]

theorem drainOne_pending_mono (env : Env) (st : SupState) (c : Comic) :
    ∀ s ∈ st.pending, s ∈ (drainOne env st c).1.pending := by
  intro s hs
  cases h : env.create_mobi c.id with
  | ok u =>
      cases u
      rw [drainOne_ok env st c h]
      exact List.mem_append.mpr (Or.inl hs)
  | error e =>
      rw [drainOne_err env st c e h]
      exact hs

theorem drainOne_emits (env : Env) (st : SupState) (c : Comic) :
    emitsFor c.id (drainOne env st c).2 := by
  have hsh := with_try_shape c (spawnStep env) (spawnStep_shape env c)
  rcases hw : Comic.with_try c (spawnStep env) with ⟨r, c1, evs⟩
  rw [hw] at hsh
  obtain ⟨_, _, he⟩ := hsh
  simp only at he
  unfold drainOne
  rw [hw]
  cases r <;> exact he

/-- Either the received entity fails to spawn — and, if it was not yet
terminal, a terminal `Failed` update is emitted for it — or a new record with
its id and unchanged terminality is appended. -/
theorem drainOne_cases (env : Env) (st : SupState) (c : Comic)
    (h : c.status.isTerminal = false) :
    hasTerminalFor c.id (drainOne env st c).2 ∨
      ∃ r, (drainOne env st c).1.pending = st.pending ++ [r] ∧
        r.comic.id = c.id ∧ r.comic.status.isTerminal = false := by
  cases hcm : env.create_mobi c.id with
  | ok u =>
      cases u
      right
      refine ⟨⟨(c.update_status .Convert 75).1⟩, ?_, ?_, ?_⟩
      · rw [drainOne_ok env st c hcm]
      · exact (update_status_shape c .Convert 75).1
      · rw [update_status_isTerminal]
        exact h
  | error e =>
      left
      rw [drainOne_err env st c e hcm]
      have hc1t : ((c.update_status .Convert 75).1).status.isTerminal = false := by
        rw [update_status_isTerminal]; exact h
      have hid : ((c.update_status .Convert 75).1).id = c.id :=
        (update_status_shape c .Convert 75).1
      rw [fail_nonterm _ e hc1t, hid]
      exact ⟨.Failed e, rfl, List.mem_append.mpr (Or.inr (by simp))⟩

theorem drainPhase_pending_mono (env : Env) :
    ∀ (q : List Comic) (st : SupState), ∀ s ∈ st.pending,
      s ∈ (drainPhase env st q).1.pending := by
  intro q
  induction q with
  | nil => intro st s hs; exact hs
  | cons c rest ih =>
      intro st s hs
      exact ih (drainOne env st c).1 s (drainOne_pending_mono env st c s hs)

theorem drainPhase_emits (env : Env) :
    ∀ (q : List Comic) (st : SupState), ∀ e ∈ (drainPhase env st q).2,
      ∃ c ∈ q, ∃ u, e = .Progress (.ComicUpdate c.id u) := by
  intro q
  induction q with
  | nil => intro st e he; cases he
  | cons c rest ih =>
      intro st e he
      rcases List.mem_append.mp he with h | h
      · obtain ⟨u, hu⟩ := drainOne_emits env st c e h
        exact ⟨c, by simp, u, hu⟩
      · obtain ⟨c', hc', u, hu⟩ := ih (drainOne env st c).1 e h
        exact ⟨c', by simp [hc'], u, hu⟩

/-- Every entity drained from the queue either got a terminal update during
the drain, or sits in the resulting in-flight set with its terminality
unchanged. -/
theorem drainPhase_cases (env : Env) :
    ∀ (q : List Comic) (st : SupState), ∀ c ∈ q, c.status.isTerminal = false →
      hasTerminalFor c.id (drainPhase env st q).2 ∨
        ∃ r ∈ (drainPhase env st q).1.pending,
          r.comic.id = c.id ∧ r.comic.status.isTerminal = false := by
  intro q
  induction q with
  | nil => intro st c hc; cases hc
  | cons c0 rest ih =>
      intro st c hc hterm
      rcases List.mem_cons.mp hc with rfl | hc'
      · rcases drainOne_cases env st c hterm with h | ⟨r, hp, hrid, hrterm⟩
        · exact Or.inl (hasTerminalFor_appendL _ h)
        · right
          refine ⟨r, ?_, hrid, hrterm⟩
          exact drainPhase_pending_mono env rest (drainOne env st c).1 r
            (hp ▸ List.mem_append.mpr (Or.inr (by simp)))
      · rcases ih (drainOne env st c0).1 c hc' hterm with h | ⟨r, hr, hrid, hrterm⟩
        · exact Or.inl (hasTerminalFor_appendR _ h)
        · exact Or.inr ⟨r, hr, hrid, hrterm⟩

/-- Every record of the in-flight set after a drain either predates it or was
created for one of the drained entities (same id, same terminality). -/
theorem drainPhase_pending_sub (env : Env) :
    ∀ (q : List Comic) (st : SupState), ∀ r ∈ (drainPhase env st q).1.pending,
      r ∈ st.pending ∨ ∃ c ∈ q, r.comic.id = c.id ∧
        r.comic.status.isTerminal = c.status.isTerminal := by
  intro q
  induction q with
  | nil => intro st r hr; exact Or.inl hr
  | cons c0 rest ih =>
      intro st r hr
      rcases ih (drainOne env st c0).1 r hr with h | ⟨c, hc, hrid, hrterm⟩
      · cases hcm : env.create_mobi c0.id with
        | ok u =>
            cases u
            rw [drainOne_ok env st c0 hcm] at h
            simp only at h
            rcases List.mem_append.mp h with h' | h'
            · exact Or.inl h'
            · right
              refine ⟨c0, by simp, ?_, ?_⟩
              · rcases List.mem_singleton.mp h' with rfl
                exact (update_status_shape c0 .Convert 75).1
              · rcases List.mem_singleton.mp h' with rfl
                exact update_status_isTerminal c0 .Convert 75
        | error e =>
            rw [drainOne_err env st c0 e hcm] at h
            exact Or.inl h
      · exact Or.inr ⟨c, by simp [hc], hrid, hrterm⟩

theorem drainOne_accounted (env : Env) (st : SupState) (c : Comic)
    (h : st.accounted) : (drainOne env st c).1.accounted := by
  unfold SupState.accounted at h ⊢
  cases hcm : env.create_mobi c.id with
  | ok u =>
      cases u
      rw [drainOne_ok env st c hcm]
      simp only [List.length_append, List.length_cons, List.length_nil]
      omega
  | error e =>
      rw [drainOne_err env st c e hcm]
      simp only
      omega

theorem drainPhase_accounted (env : Env) :
    ∀ (q : List Comic) (st : SupState), st.accounted →
      (drainPhase env st q).1.accounted := by
  intro q
  induction q with
  | nil => intro st h; exact h
  | cons c rest ih =>
      intro st h
      exact ih (drainOne env st c).1 (drainOne_accounted env st c h)

/-! ### Supervisor lemmas: poll phase -/

theorem collectRecord_emits (env : Env) (s : KindleGenStatus) :
    emitsFor s.comic.id (collectRecord env s).2 := by
  have hsh := with_try_shape s.comic (waitStep env) (waitStep_shape env s.comic)
  rcases hw : Comic.with_try s.comic (waitStep env) with ⟨r, c1, evs⟩
  rw [hw] at hsh
  obtain ⟨_, _, he⟩ := hsh
  simp only at he
  unfold collectRecord
  rw [hw]
  exact he

/-- Finalizing a not-yet-terminal record always produces a terminal update
for its entity: `Success` when the blocking wait succeeds, `Failed` when it
errors. -/
theorem collectRecord_terminal_of_nonterm (env : Env) (s : KindleGenStatus)
    (h : s.comic.status.isTerminal = false) :
    hasTerminalFor s.comic.id (collectRecord env s).2 := by
  cases hw : env.wait s.comic.id with
  | error e =>
      have hws : waitStep env s.comic = (.error e, s.comic, []) := by
        unfold waitStep
        rw [hw]
      have hct : (collectRecord env s).2 = [] ++ (s.comic.fail e).2 := by
        unfold collectRecord Comic.with_try
        rw [hws]
      rw [hct, fail_nonterm s.comic e h]
      exact ⟨.Failed e, rfl, by simp⟩
  | ok u =>
      cases u
      rcases hsc : s.comic.stage_completed .Convert with ⟨c1, e1⟩
      have hc1t : c1.status.isTerminal = false := by
        have hit := update_status_isTerminal s.comic .Convert 100
        unfold Comic.stage_completed at hsc
        rw [hsc] at hit
        simp only at hit
        rw [hit]
        exact h
      have hc1id : c1.id = s.comic.id := by
        have hsp := (stage_completed_shape s.comic .Convert).1
        rw [hsc] at hsp
        exact hsp
      rcases hsu : c1.success with ⟨c2, e2⟩
      have he2 : e2 = [.Progress (.ComicUpdate c1.id .Success)] := by
        have hc := congrArg Prod.snd hsu
        rw [success_nonterm c1 hc1t] at hc
        exact hc.symm
      have hws : waitStep env s.comic = (.ok (), c2, e1 ++ e2) := by
        unfold waitStep
        simp only [hw, hsc, hsu]
      have hct : (collectRecord env s).2 = e1 ++ e2 := by
        unfold collectRecord Comic.with_try
        rw [hws]
      rw [hct, he2, hc1id]
      exact ⟨.Success, rfl, by simp⟩

/-- Finalization never changes an already-terminal status: a terminal entity
is not downgraded by the collection path. -/
theorem collectRecord_preserves_terminal (env : Env) (s : KindleGenStatus)
    (h : s.comic.status.isTerminal = true) :
    (collectRecord env s).1.status = s.comic.status := by
  cases hw : env.wait s.comic.id with
  | error e =>
      simp [collectRecord, Comic.with_try, waitStep, Comic.fail, hw, h]
  | ok u =>
      cases u
      simp [collectRecord, Comic.with_try, waitStep, Comic.stage_completed,
        Comic.update_status, Comic.success, hw, h]

theorem pollOne_notdone (env : Env) (n : Nat) (s : KindleGenStatus)
    (h : env.try_wait s.comic.id n = .NotDone) :
    pollOne env n s = (some s, []) := by
  simp [pollOne, h]

theorem pollOne_done (env : Env) (n : Nat) (s : KindleGenStatus)
    (h : env.try_wait s.comic.id n ≠ .NotDone) :
    pollOne env n s = (none, (collectRecord env s).2) := by
  unfold pollOne
  cases henv : env.try_wait s.comic.id n
  · exact absurd henv h
  · rfl
  · rfl

theorem pollPhase_cons_notdone (env : Env) (n : Nat) (s : KindleGenStatus)
    (rest : List KindleGenStatus) (h : env.try_wait s.comic.id n = .NotDone) :
    pollPhase env n (s :: rest) =
      (s :: (pollPhase env n rest).1, (pollPhase env n rest).2.1,
       (pollPhase env n rest).2.2) := by
  rw [pollPhase.eq_2, pollOne_notdone env n s h]
  simp

theorem pollPhase_cons_done (env : Env) (n : Nat) (s : KindleGenStatus)
    (rest : List KindleGenStatus) (h : env.try_wait s.comic.id n ≠ .NotDone) :
    pollPhase env n (s :: rest) =
      ((pollPhase env n rest).1,
       (collectRecord env s).2 ++ (pollPhase env n rest).2.1,
       (pollPhase env n rest).2.2 + 1) := by
  rw [pollPhase.eq_2, pollOne_done env n s h]

/-- After the poll phase plus compaction, the kept records are exactly those
whose non-blocking check still reports the process as running. -/
theorem pollPhase_kept_filter (env : Env) (n : Nat) :
    ∀ pending, (pollPhase env n pending).1 =
      pending.filter (fun s => decide (env.try_wait s.comic.id n = .NotDone)) := by
  intro pending
  induction pending with
  | nil => rfl
  | cons s rest ih =>
      by_cases htw : env.try_wait s.comic.id n = .NotDone
      · rw [pollPhase_cons_notdone env n s rest htw, List.filter_cons]
        simp [htw, ih]
      · rw [pollPhase_cons_done env n s rest htw, List.filter_cons]
        simp [htw, ih]

theorem pollPhase_kept_sub (env : Env) (n : Nat) (pending : List KindleGenStatus) :
    ∀ s ∈ (pollPhase env n pending).1, s ∈ pending := by
  intro s hs
  rw [pollPhase_kept_filter env n pending] at hs
  exact List.mem_of_mem_filter hs

/-- Kept records plus finalized records account for the whole in-flight set. -/
theorem pollPhase_count (env : Env) (n : Nat) :
    ∀ pending, (pollPhase env n pending).1.length + (pollPhase env n pending).2.2 =
      pending.length := by
  intro pending
  induction pending with
  | nil => rfl
  | cons s rest ih =>
      by_cases htw : env.try_wait s.comic.id n = .NotDone
      · rw [pollPhase_cons_notdone env n s rest htw]
        simp only [List.length_cons]
        omega
      · rw [pollPhase_cons_done env n s rest htw]
        simp only [List.length_cons]
        omega

theorem pollPhase_emits (env : Env) (n : Nat) :
    ∀ pending, ∀ e ∈ (pollPhase env n pending).2.1,
      ∃ s ∈ pending, ∃ u, e = .Progress (.ComicUpdate s.comic.id u) := by
  intro pending
  induction pending with
  | nil => intro e he; cases he
  | cons s rest ih =>
      intro e he
      by_cases htw : env.try_wait s.comic.id n = .NotDone
      · rw [pollPhase_cons_notdone env n s rest htw] at he
        obtain ⟨s', hs', u, hu⟩ := ih e he
        exact ⟨s', by simp [hs'], u, hu⟩
      · rw [pollPhase_cons_done env n s rest htw] at he
        rcases List.mem_append.mp he with h | h
        · obtain ⟨u, hu⟩ := collectRecord_emits env s e h
          exact ⟨s, by simp, u, hu⟩
        · obtain ⟨s', hs', u, hu⟩ := ih e h
          exact ⟨s', by simp [hs'], u, hu⟩

/-- Every not-yet-terminal in-flight record is either kept for the next
cycle or receives a terminal update during this poll phase. -/
theorem pollPhase_cases (env : Env) (n : Nat) :
    ∀ pending, ∀ s ∈ pending, s.comic.status.isTerminal = false →
      s ∈ (pollPhase env n pending).1 ∨
        hasTerminalFor s.comic.id (pollPhase env n pending).2.1 := by
  intro pending
  induction pending with
  | nil => intro s hs; cases hs
  | cons s0 rest ih =>
      intro s hs hterm
      by_cases htw : env.try_wait s0.comic.id n = .NotDone
      · rw [pollPhase_cons_notdone env n s0 rest htw]
        rcases List.mem_cons.mp hs with rfl | hs'
        · exact Or.inl (by simp)
        · rcases ih s hs' hterm with h | h
          · exact Or.inl (by simp [h])
          · exact Or.inr h
      · rw [pollPhase_cons_done env n s0 rest htw]
        rcases List.mem_cons.mp hs with rfl | hs'
        · exact Or.inr (hasTerminalFor_appendL _
            (collectRecord_terminal_of_nonterm env s hterm))
        · rcases ih s hs' hterm with h | h
          · exact Or.inl h
          · exact Or.inr (hasTerminalFor_appendR _ h)

/-! ### Supervisor lemmas: the outer loop -/

theorem supCycle_eq_exit (env : Env) (arrive : Nat → List Comic) (closeAt n : Nat)
    (st : SupState)
    (h : (decide (closeAt ≤ n) &&
      (drainPhase env st (arrive n)).1.pending.isEmpty) = true) :
    supCycle env arrive closeAt n st =
      ((drainPhase env st (arrive n)).1, (drainPhase env st (arrive n)).2, true) := by
  simp only [supCycle, h, if_true]

theorem supCycle_eq_cont (env : Env) (arrive : Nat → List Comic) (closeAt n : Nat)
    (st : SupState)
    (h : (decide (closeAt ≤ n) &&
      (drainPhase env st (arrive n)).1.pending.isEmpty) = false) :
    supCycle env arrive closeAt n st =
      ({ (drainPhase env st (arrive n)).1 with
           pending := (pollPhase env n (drainPhase env st (arrive n)).1.pending).1,
           finalized := (drainPhase env st (arrive n)).1.finalized +
             (pollPhase env n (drainPhase env st (arrive n)).1.pending).2.2 },
       (drainPhase env st (arrive n)).2 ++
         (pollPhase env n (drainPhase env st (arrive n)).1.pending).2.1,
       false) := by
  simp only [supCycle, h, Bool.false_eq_true, if_false]

/-- The loop-exit decision of one supervisor cycle: the cycle breaks the
outer loop exactly when the queue is permanently closed and the in-flight
set, right after the drain, is empty. -/
theorem supCycle_exit_iff (env : Env) (arrive : Nat → List Comic) (closeAt n : Nat)
    (st : SupState) :
    (supCycle env arrive closeAt n st).2.2 = true ↔
      (closeAt ≤ n ∧ (drainPhase env st (arrive n)).1.pending = []) := by
  by_cases h : (decide (closeAt ≤ n) &&
      (drainPhase env st (arrive n)).1.pending.isEmpty) = true
  · rw [supCycle_eq_exit env arrive closeAt n st h]
    simp only [Bool.and_eq_true, decide_eq_true_eq, List.isEmpty_iff] at h
    simpa using h
  · have h' := Bool.not_eq_true _ |>.mp h
    rw [supCycle_eq_cont env arrive closeAt n st h']
    simp only [Bool.and_eq_true, decide_eq_true_eq, List.isEmpty_iff] at h
    simpa using h

theorem supCycle_exit_pending (env : Env) (arrive : Nat → List Comic)
    (closeAt n : Nat) (st : SupState)
    (h : (supCycle env arrive closeAt n st).2.2 = true) :
    (supCycle env arrive closeAt n st).1.pending = [] := by
  obtain ⟨h1, h2⟩ := (supCycle_exit_iff env arrive closeAt n st).mp h
  rw [supCycle_eq_exit env arrive closeAt n st
    (by simp [h1, List.isEmpty_iff, h2])]
  exact h2

theorem supCycle_accounted (env : Env) (arrive : Nat → List Comic)
    (closeAt n : Nat) (st : SupState) (h : st.accounted) :
    (supCycle env arrive closeAt n st).1.accounted := by
  have hd := drainPhase_accounted env (arrive n) st h
  by_cases hc : (decide (closeAt ≤ n) &&
      (drainPhase env st (arrive n)).1.pending.isEmpty) = true
  · rw [supCycle_eq_exit env arrive closeAt n st hc]
    exact hd
  · have hc' := Bool.not_eq_true _ |>.mp hc
    rw [supCycle_eq_cont env arrive closeAt n st hc']
    unfold SupState.accounted at hd ⊢
    have hpc := pollPhase_count env n (drainPhase env st (arrive n)).1.pending
    simp only
    omega

/-- Every event of a supervisor cycle is a `ComicUpdate` for an entity that
was in flight before the cycle or arrived during it, and the same holds of
the records kept for the next cycle. -/
theorem supCycle_emits (env : Env) (arrive : Nat → List Comic) (closeAt n : Nat)
    (st : SupState) (P : Nat → Prop)
    (hP : ∀ c ∈ arrive n, P c.id) (hpend : ∀ s ∈ st.pending, P s.comic.id) :
    (∀ e ∈ (supCycle env arrive closeAt n st).2.1,
       ∃ i, P i ∧ ∃ u, e = .Progress (.ComicUpdate i u)) ∧
    (∀ s ∈ (supCycle env arrive closeAt n st).1.pending, P s.comic.id) := by
  have hdrainP : ∀ s ∈ (drainPhase env st (arrive n)).1.pending, P s.comic.id := by
    intro s hs
    rcases drainPhase_pending_sub env (arrive n) st s hs with h | ⟨c, hc, hid, _⟩
    · exact hpend s h
    · rw [hid]; exact hP c hc
  have hdrainE : ∀ e ∈ (drainPhase env st (arrive n)).2,
      ∃ i, P i ∧ ∃ u, e = .Progress (.ComicUpdate i u) := by
    intro e he
    obtain ⟨c, hc, u, hu⟩ := drainPhase_emits env (arrive n) st e he
    exact ⟨c.id, hP c hc, u, hu⟩
  by_cases hc : (decide (closeAt ≤ n) &&
      (drainPhase env st (arrive n)).1.pending.isEmpty) = true
  · rw [supCycle_eq_exit env arrive closeAt n st hc]
    exact ⟨hdrainE, hdrainP⟩
  · have hc' := Bool.not_eq_true _ |>.mp hc
    rw [supCycle_eq_cont env arrive closeAt n st hc']
    constructor
    · intro e he
      rcases List.mem_append.mp he with h | h
      · exact hdrainE e h
      · obtain ⟨s, hs, u, hu⟩ :=
          pollPhase_emits env n (drainPhase env st (arrive n)).1.pending e h
        exact ⟨s.comic.id, hdrainP s hs, u, hu⟩
    · intro s hs
      exact hdrainP s
        (pollPhase_kept_sub env n (drainPhase env st (arrive n)).1.pending s hs)

theorem supRunN_accounted (env : Env) (arrive : Nat → List Comic) (closeAt : Nat) :
    ∀ (fuel n : Nat) (st : SupState), st.accounted →
      (supRunN env arrive closeAt fuel n st).1.accounted := by
  intro fuel
  induction fuel with
  | zero => intro n st h; exact h
  | succ fuel ih =>
      intro n st h
      have hcy := supCycle_accounted env arrive closeAt n st h
      by_cases hc : (supCycle env arrive closeAt n st).2.2 = true
      · simp only [supRunN, hc, if_true]
        exact hcy
      · have hc' := Bool.not_eq_true _ |>.mp hc
        simp only [supRunN, hc', Bool.false_eq_true, if_false]
        exact ih (n + 1) (supCycle env arrive closeAt n st).1 hcy

theorem supRunN_exit_pending (env : Env) (arrive : Nat → List Comic) (closeAt : Nat) :
    ∀ (fuel n : Nat) (st : SupState),
      (supRunN env arrive closeAt fuel n st).2.2 = true →
      (supRunN env arrive closeAt fuel n st).1.pending = [] := by
  intro fuel
  induction fuel with
  | zero => intro n st h; simp [supRunN] at h
  | succ fuel ih =>
      intro n st h
      by_cases hc : (supCycle env arrive closeAt n st).2.2 = true
      · simp only [supRunN, hc, if_true]
        exact supCycle_exit_pending env arrive closeAt n st hc
      · have hc' := Bool.not_eq_true _ |>.mp hc
        simp only [supRunN, hc', Bool.false_eq_true, if_false] at h ⊢
        exact ih (n + 1) (supCycle env arrive closeAt n st).1 h

theorem supRunN_emits (env : Env) (arrive : Nat → List Comic) (closeAt : Nat)
    (P : Nat → Prop) (hP : ∀ m, ∀ c ∈ arrive m, P c.id) :
    ∀ (fuel n : Nat) (st : SupState), (∀ s ∈ st.pending, P s.comic.id) →
      ∀ e ∈ (supRunN env arrive closeAt fuel n st).2.1,
        ∃ i, P i ∧ ∃ u, e = .Progress (.ComicUpdate i u) := by
  intro fuel
  induction fuel with
  | zero => intro n st _ e he; cases he
  | succ fuel ih =>
      intro n st hpend e he
      have hcy := supCycle_emits env arrive closeAt n st P (hP n) hpend
      by_cases hc : (supCycle env arrive closeAt n st).2.2 = true
      · simp only [supRunN, hc, if_true] at he
        exact hcy.1 e he
      · have hc' := Bool.not_eq_true _ |>.mp hc
        simp only [supRunN, hc', Bool.false_eq_true, if_false] at he
        rcases List.mem_append.mp he with h | h
        · exact hcy.1 e h
        · exact ih (n + 1) (supCycle env arrive closeAt n st).1 hcy.2 e h

/-- Main liveness fact for the supervisor loop: if it exits within the fuel
budget and nothing arrives after cycle `n`, then every not-yet-terminal
record in flight at cycle `n`, and every not-yet-terminal entity arriving at
cycle `n`, receives a terminal update among the loop's events. -/
theorem supRunN_terminal (env : Env) (arrive : Nat → List Comic) (closeAt : Nat) :
    ∀ (fuel n : Nat) (st : SupState), (∀ m, n < m → arrive m = []) →
      (supRunN env arrive closeAt fuel n st).2.2 = true →
      (∀ s ∈ st.pending, s.comic.status.isTerminal = false →
         hasTerminalFor s.comic.id (supRunN env arrive closeAt fuel n st).2.1) ∧
      (∀ c ∈ arrive n, c.status.isTerminal = false →
         hasTerminalFor c.id (supRunN env arrive closeAt fuel n st).2.1) := by
  intro fuel
  induction fuel with
  | zero => intro n st _ hex; simp [supRunN] at hex
  | succ fuel ih =>
      intro n st harr hex
      by_cases hcond : (decide (closeAt ≤ n) &&
          (drainPhase env st (arrive n)).1.pending.isEmpty) = true
      · have heq := supCycle_eq_exit env arrive closeAt n st hcond
        have hexit : (supCycle env arrive closeAt n st).2.2 = true := by rw [heq]
        have hpend : (drainPhase env st (arrive n)).1.pending = [] := by
          simp only [Bool.and_eq_true, List.isEmpty_iff] at hcond
          exact hcond.2
        simp only [supRunN, hexit, if_true, heq]
        constructor
        · intro s hs _
          have hmem := drainPhase_pending_mono env (arrive n) st s hs
          rw [hpend] at hmem
          cases hmem
        · intro c hcA hterm
          rcases drainPhase_cases env (arrive n) st c hcA hterm with h | ⟨r, hr, _, _⟩
          · exact h
          · rw [hpend] at hr
            cases hr
      · have hcond' := Bool.not_eq_true _ |>.mp hcond
        have heq := supCycle_eq_cont env arrive closeAt n st hcond'
        have hnex : (supCycle env arrive closeAt n st).2.2 = false := by rw [heq]
        simp only [supRunN, hnex, Bool.false_eq_true, if_false] at hex ⊢
        have harr' : ∀ m, n + 1 < m → arrive m = [] := fun m hm => harr m (by omega)
        have ihres := ih (n + 1) (supCycle env arrive closeAt n st).1 harr' hex
        have hpendeq : (supCycle env arrive closeAt n st).1.pending =
            (pollPhase env n (drainPhase env st (arrive n)).1.pending).1 := by
          rw [heq]
        have heveq : (supCycle env arrive closeAt n st).2.1 =
            (drainPhase env st (arrive n)).2 ++
              (pollPhase env n (drainPhase env st (arrive n)).1.pending).2.1 := by
          rw [heq]
        rw [heveq]
        constructor
        · intro s hs hterm
          have hsd := drainPhase_pending_mono env (arrive n) st s hs
          rcases pollPhase_cases env n (drainPhase env st (arrive n)).1.pending s hsd hterm
            with hkept | htev
          · have hmem : s ∈ (supCycle env arrive closeAt n st).1.pending := by
              rw [hpendeq]; exact hkept
            exact hasTerminalFor_appendR _ (ihres.1 s hmem hterm)
          · exact hasTerminalFor_appendL _ (hasTerminalFor_appendR _ htev)
        · intro c hcA hterm
          rcases drainPhase_cases env (arrive n) st c hcA hterm with h | ⟨r, hr, hrid, hrterm⟩
          · exact hasTerminalFor_appendL _ (hasTerminalFor_appendL _ h)
          · rcases pollPhase_cases env n (drainPhase env st (arrive n)).1.pending r hr hrterm
              with hkept | htev
            · have hmem : r ∈ (supCycle env arrive closeAt n st).1.pending := by
                rw [hpendeq]; exact hkept
              have hres := ihres.1 r hmem hrterm
              rw [hrid] at hres
              exact hasTerminalFor_appendR _ hres
            · exact hasTerminalFor_appendL _ (hasTerminalFor_appendR _ (hrid ▸ htev))

/-! ### Worker-path case lemmas -/

theorem with_try_extract_ok (env : Env) (c : Comic) (n : Nat) (images : List String)
    (hu : env.unarchive c.id = .ok n) (hp : env.process_images c.id = .ok images) :
    ∃ c1 evs, Comic.with_try c (extractStep env) = (some images, c1, evs) ∧
      c1.id = c.id ∧ c1.processed_files = c.processed_files ∧
      c1.status.isTerminal = c.status.isTerminal := by
  rcases hi : c.image_processing_start n with ⟨c1, e1⟩
  have hsh1 := image_processing_start_shape c n
  rw [hi] at hsh1
  obtain ⟨hid1, hpf1, _⟩ := hsh1
  simp only at hid1 hpf1
  have ht1 : c1.status.isTerminal = c.status.isTerminal := by
    have := update_status_isTerminal c .Process 0
    unfold Comic.image_processing_start at hi
    rw [hi] at this
    exact this
  rcases hic : c1.image_processing_complete with ⟨c2, e2⟩
  have hsh2 := image_processing_complete_shape c1
  rw [hic] at hsh2
  obtain ⟨hid2, hpf2, _⟩ := hsh2
  simp only at hid2 hpf2
  have ht2 : c2.status.isTerminal = c1.status.isTerminal := by
    have := update_status_isTerminal c1 .Process 100
    unfold Comic.image_processing_complete Comic.stage_completed at hic
    rw [hic] at this
    exact this
  have hex : extractStep env c = (.ok images, c2, e1 ++ e2) := by
    unfold extractStep
    simp only [hu, hi, hid1, hp, hic]
  refine ⟨c2, e1 ++ e2, ?_, hid2.trans hid1, hpf2.trans hpf1, ht2.trans ht1⟩
  unfold Comic.with_try
  simp only [hex]

theorem with_try_extract_cases (env : Env) (c : Comic)
    (h : c.status.isTerminal = false) :
    (∃ images c1 evs, Comic.with_try c (extractStep env) = (some images, c1, evs) ∧
       c1.status.isTerminal = false ∧ c1.id = c.id ∧
       env.process_images c.id = .ok images) ∨
    (∃ c1 evs, Comic.with_try c (extractStep env) = (none, c1, evs) ∧
       hasTerminalFor c.id evs) := by
  cases hu : env.unarchive c.id with
  | error e =>
      right
      have hex : extractStep env c = (.error e, c, []) := by
        unfold extractStep
        rw [hu]
      refine ⟨(c.fail e).1, [] ++ (c.fail e).2, ?_, ?_⟩
      · unfold Comic.with_try
        simp only [hex]
      · rw [fail_nonterm c e h]
        exact ⟨.Failed e, rfl, by simp⟩
  | ok n =>
      rcases hi : c.image_processing_start n with ⟨c1, e1⟩
      have hsh1 := image_processing_start_shape c n
      rw [hi] at hsh1
      obtain ⟨hid1, _, _⟩ := hsh1
      simp only at hid1
      have ht1 : c1.status.isTerminal = false := by
        have := update_status_isTerminal c .Process 0
        unfold Comic.image_processing_start at hi
        rw [hi] at this
        rw [this]
        exact h
      cases hp : env.process_images c.id with
      | error e =>
          right
          have hex : extractStep env c = (.error e, c1, e1) := by
            unfold extractStep
            simp only [hu, hi, hid1, hp]
          refine ⟨(c1.fail e).1, e1 ++ (c1.fail e).2, ?_, ?_⟩
          · unfold Comic.with_try
            simp only [hex]
          · rw [fail_nonterm c1 e ht1, hid1]
            exact ⟨.Failed e, rfl, List.mem_append.mpr (Or.inr (by simp))⟩
      | ok images =>
          left
          obtain ⟨c2, evs, heq, hid, _, ht⟩ := with_try_extract_ok env c n images hu hp
          exact ⟨images, c2, evs, heq, by rw [ht]; exact h, hid, rfl⟩

/-- The extraction `with_try` succeeds only when both collaborators do. -/
theorem with_try_extract_some_inv (env : Env) (c : Comic) (images : List String)
    (h : (Comic.with_try c (extractStep env)).1 = some images) :
    (∃ n, env.unarchive c.id = .ok n) ∧ env.process_images c.id = .ok images := by
  cases hu : env.unarchive c.id with
  | error e =>
      have hex : extractStep env c = (.error e, c, []) := by
        unfold extractStep
        rw [hu]
      have : (Comic.with_try c (extractStep env)).1 = none := by
        unfold Comic.with_try
        rw [hex]
      rw [this] at h
      cases h
  | ok n =>
      rcases hi : c.image_processing_start n with ⟨c1, e1⟩
      have hid1 : c1.id = c.id := by
        have := (image_processing_start_shape c n).1
        rw [hi] at this
        exact this
      cases hp : env.process_images c.id with
      | error e =>
          have hex : extractStep env c = (.error e, c1, e1) := by
            unfold extractStep
            simp only [hu, hi, hid1, hp]
          have hnone : (Comic.with_try c (extractStep env)).1 = none := by
            unfold Comic.with_try
            simp only [hex]
          rw [hnone] at h
          cases h
      | ok images' =>
          obtain ⟨c2, evs, heq, _, _, _⟩ := with_try_extract_ok env c n images' hu hp
          rw [heq] at h
          simp only at h
          obtain rfl := Option.some.inj h
          exact ⟨⟨n, rfl⟩, rfl⟩

/-- Entity construction failed at extraction: the worker emits exactly the
terminal `Failed` update and nothing else, and nothing is queued. -/
theorem processOne_unarchive_err (env : Env) (config : ComicConfig) (c : Comic)
    (e : String) (h : c.status.isTerminal = false)
    (hu : env.unarchive c.id = .error e) :
    processOne env config c =
      ({ c with status := .Failed e },
       [.Progress (.ComicUpdate c.id (.Failed e))], none) := by
  have hex : extractStep env c = (.error e, c, []) := by
    unfold extractStep
    rw [hu]
  unfold processOne Comic.with_try
  simp only [hex, fail_nonterm c e h]
  simp

/-- Transformation failed: the worker emits the in-progress update followed by
the terminal `Failed` update, the artifact list stays empty, nothing queued. -/
theorem processOne_images_err (env : Env) (config : ComicConfig) (c : Comic)
    (n : Nat) (e : String) (h : c.status.isTerminal = false)
    (hu : env.unarchive c.id = .ok n) (hp : env.process_images c.id = .error e) :
    processOne env config c =
      ({ c with status := .Failed e },
       [.Progress (.ComicUpdate c.id (.InProgress .Process 0)),
        .Progress (.ComicUpdate c.id (.Failed e))], none) := by
  have hc1 : c.image_processing_start n =
      ({ c with status := .InProgress .Process 0 },
       [.Progress (.ComicUpdate c.id (.InProgress .Process 0))]) := by
    unfold Comic.image_processing_start
    exact update_status_nonterm c .Process 0 h
  have hex : extractStep env c =
      (.error e, { c with status := .InProgress .Process 0 },
       [.Progress (.ComicUpdate c.id (.InProgress .Process 0))]) := by
    unfold extractStep
    simp only [hu, hc1,
      show ({ c with status := ComicStatus.InProgress .Process 0 } : Comic).id = c.id
        from rfl, hp]
  have hfl := fail_nonterm { c with status := ComicStatus.InProgress .Process 0 } e rfl
  unfold processOne Comic.with_try
  simp only [hex, hfl]
  simp

theorem with_try_cbz_terminal (env : Env) (c : Comic)
    (h : c.status.isTerminal = false) :
    hasTerminalFor c.id (Comic.with_try c (cbzStep env)).2.2 := by
  rcases hu : c.update_status .Package 75 with ⟨c1, e1⟩
  have hid1 : c1.id = c.id := by
    have := (update_status_shape c .Package 75).1
    rw [hu] at this
    exact this
  have ht1 : c1.status.isTerminal = false := by
    have := update_status_isTerminal c .Package 75
    rw [hu] at this
    simp only at this
    rw [this]
    exact h
  cases hb : env.build_cbz c.id with
  | error e =>
      have hcs : cbzStep env c = (.error e, c1, e1) := by
        unfold cbzStep
        simp only [hu, hid1, hb]
      have hwt : (Comic.with_try c (cbzStep env)).2.2 = e1 ++ (c1.fail e).2 := by
        unfold Comic.with_try
        simp only [hcs]
      rw [hwt, fail_nonterm c1 e ht1, hid1]
      exact ⟨.Failed e, rfl, List.mem_append.mpr (Or.inr (by simp))⟩
  | ok u =>
      cases u
      rcases hsc : c1.stage_completed .Package with ⟨c2, e2⟩
      have hid2 : c2.id = c1.id := by
        have := (stage_completed_shape c1 .Package).1
        rw [hsc] at this
        exact this
      have ht2 : c2.status.isTerminal = false := by
        have := update_status_isTerminal c1 .Package 100
        unfold Comic.stage_completed at hsc
        rw [hsc] at this
        simp only at this
        rw [this]
        exact ht1
      rcases hsu : c2.success with ⟨c3, e3⟩
      have he3 : e3 = [.Progress (.ComicUpdate c2.id .Success)] := by
        have hcg := congrArg Prod.snd hsu
        rw [success_nonterm c2 ht2] at hcg
        exact hcg.symm
      have hcs : cbzStep env c = (.ok (), c3, e1 ++ e2 ++ e3) := by
        unfold cbzStep
        simp only [hu, hid1, hb, hsc, hsu]
      have hwt : (Comic.with_try c (cbzStep env)).2.2 = e1 ++ e2 ++ e3 := by
        unfold Comic.with_try
        simp only [hcs]
      rw [hwt, he3, hid2, hid1]
      exact ⟨.Success, rfl, List.mem_append.mpr (Or.inr (by simp))⟩

theorem with_try_epub_terminal (env : Env) (c : Comic)
    (h : c.status.isTerminal = false) :
    hasTerminalFor c.id (Comic.with_try c (epubStep env)).2.2 := by
  rcases hu : c.update_status .Package 75 with ⟨c1, e1⟩
  have hid1 : c1.id = c.id := by
    have := (update_status_shape c .Package 75).1
    rw [hu] at this
    exact this
  have ht1 : c1.status.isTerminal = false := by
    have := update_status_isTerminal c .Package 75
    rw [hu] at this
    simp only at this
    rw [this]
    exact h
  cases hb : env.build_epub c.id with
  | error e =>
      have hcs : epubStep env c = (.error e, c1, e1) := by
        unfold epubStep
        simp only [hu, hid1, hb]
      have hwt : (Comic.with_try c (epubStep env)).2.2 = e1 ++ (c1.fail e).2 := by
        unfold Comic.with_try
        simp only [hcs]
      rw [hwt, fail_nonterm c1 e ht1, hid1]
      exact ⟨.Failed e, rfl, List.mem_append.mpr (Or.inr (by simp))⟩
  | ok u =>
      cases u
      rcases hsc : c1.stage_completed .Package with ⟨c2, e2⟩
      have hid2 : c2.id = c1.id := by
        have := (stage_completed_shape c1 .Package).1
        rw [hsc] at this
        exact this
      have ht2 : c2.status.isTerminal = false := by
        have := update_status_isTerminal c1 .Package 100
        unfold Comic.stage_completed at hsc
        rw [hsc] at this
        simp only at this
        rw [this]
        exact ht1
      cases hr : env.rename_output c.id with
      | error e =>
          have hcs : epubStep env c = (.error e, c2, e1 ++ e2) := by
            unfold epubStep
            simp only [hu, hid1, hb, hsc, hid2, hr]
          have hwt : (Comic.with_try c (epubStep env)).2.2 =
              (e1 ++ e2) ++ (c2.fail e).2 := by
            unfold Comic.with_try
            simp only [hcs]
          rw [hwt, fail_nonterm c2 e ht2, hid2, hid1]
          exact ⟨.Failed e, rfl, List.mem_append.mpr (Or.inr (by simp))⟩
      | ok u =>
          cases u
          rcases hsu : c2.success with ⟨c3, e3⟩
          have he3 : e3 = [.Progress (.ComicUpdate c2.id .Success)] := by
            have hcg := congrArg Prod.snd hsu
            rw [success_nonterm c2 ht2] at hcg
            exact hcg.symm
          have hcs : epubStep env c = (.ok (), c3, e1 ++ e2 ++ e3) := by
            unfold epubStep
            simp only [hu, hid1, hb, hsc, hid2, hr, hsu]
          have hwt : (Comic.with_try c (epubStep env)).2.2 = e1 ++ e2 ++ e3 := by
            unfold Comic.with_try
            simp only [hcs]
          rw [hwt, he3, hid2, hid1]
          exact ⟨.Success, rfl, List.mem_append.mpr (Or.inr (by simp))⟩

theorem with_try_mobi_cases (env : Env) (c : Comic)
    (h : c.status.isTerminal = false) :
    (∃ c1 evs, Comic.with_try c (mobiStep env) = (some (), c1, evs) ∧
       c1.status.isTerminal = false ∧ c1.id = c.id) ∨
    (∃ c1 evs, Comic.with_try c (mobiStep env) = (none, c1, evs) ∧
       hasTerminalFor c.id evs) := by
  rcases hu : c.update_status .Package 50 with ⟨c1, e1⟩
  have hid1 : c1.id = c.id := by
    have := (update_status_shape c .Package 50).1
    rw [hu] at this
    exact this
  have ht1 : c1.status.isTerminal = false := by
    have := update_status_isTerminal c .Package 50
    rw [hu] at this
    simp only at this
    rw [this]
    exact h
  cases hb : env.build_epub c.id with
  | error e =>
      right
      have hcs : mobiStep env c = (.error e, c1, e1) := by
        unfold mobiStep
        simp only [hu, hid1, hb]
      refine ⟨(c1.fail e).1, e1 ++ (c1.fail e).2, ?_, ?_⟩
      · unfold Comic.with_try
        simp only [hcs]
      · rw [fail_nonterm c1 e ht1, hid1]
        exact ⟨.Failed e, rfl, List.mem_append.mpr (Or.inr (by simp))⟩
  | ok u =>
      cases u
      left
      rcases hsc : c1.stage_completed .Package with ⟨c2, e2⟩
      have hid2 : c2.id = c1.id := by
        have := (stage_completed_shape c1 .Package).1
        rw [hsc] at this
        exact this
      have ht2 : c2.status.isTerminal = false := by
        have := update_status_isTerminal c1 .Package 100
        unfold Comic.stage_completed at hsc
        rw [hsc] at this
        simp only at this
        rw [this]
        exact ht1
      have hcs : mobiStep env c = (.ok (), c2, e1 ++ e2) := by
        unfold mobiStep
        simp only [hu, hid1, hb, hsc]
      refine ⟨c2, e1 ++ e2, ?_, ht2, hid2.trans hid1⟩
      unfold Comic.with_try
      simp only [hcs]

/-- The Mobi branch step succeeds exactly when the e-book assembly does. -/
theorem with_try_mobi_some_iff (env : Env) (c : Comic) :
    (Comic.with_try c (mobiStep env)).1.isSome = true ↔
      env.build_epub c.id = .ok () := by
  rcases hu : c.update_status .Package 50 with ⟨c1, e1⟩
  have hid1 : c1.id = c.id := by
    have := (update_status_shape c .Package 50).1
    rw [hu] at this
    exact this
  cases hb : env.build_epub c.id with
  | error e =>
      have hcs : mobiStep env c = (.error e, c1, e1) := by
        unfold mobiStep
        simp only [hu, hid1, hb]
      have hwt : (Comic.with_try c (mobiStep env)).1 = none := by
        unfold Comic.with_try
        simp only [hcs]
      rw [hwt]
      simp
  | ok u =>
      cases u
      rcases hsc : c1.stage_completed .Package with ⟨c2, e2⟩
      have hcs : mobiStep env c = (.ok (), c2, e1 ++ e2) := by
        unfold mobiStep
        simp only [hu, hid1, hb, hsc]
      have hwt : (Comic.with_try c (mobiStep env)).1 = some () := by
        unfold Comic.with_try
        simp only [hcs]
      rw [hwt]
      simp

/-- Entities of the Cbz and Epub formats are never queued to the supervisor. -/
theorem processOne_sent_none (env : Env) (config : ComicConfig) (c : Comic)
    (hfmt : config.output_format ≠ .Mobi) :
    (processOne env config c).2.2 = none := by
  rcases hwt : Comic.with_try c (extractStep env) with ⟨r, c1, evs⟩
  cases r with
  | none => simp only [processOne, hwt]
  | some images =>
      cases hf : config.output_format with
      | Cbz =>
          rcases hwb : Comic.with_try { c1 with processed_files := images }
            (cbzStep env) with ⟨rb, cB, evs2⟩
          simp only [processOne, hwt, hf, hwb]
      | Epub =>
          rcases hwb : Comic.with_try { c1 with processed_files := images }
            (epubStep env) with ⟨rb, cB, evs2⟩
          simp only [processOne, hwt, hf, hwb]
      | Mobi => exact absurd hf hfmt

/-- After a successful transformation the artifact list of the entity — both
the final state and the queued copy — is exactly the transformation result. -/
theorem processOne_processed_files (env : Env) (config : ComicConfig) (c : Comic)
    (n : Nat) (images : List String)
    (hu : env.unarchive c.id = .ok n) (hp : env.process_images c.id = .ok images) :
    (processOne env config c).1.processed_files = images ∧
    (∀ c', (processOne env config c).2.2 = some c' →
       c'.processed_files = images) := by
  obtain ⟨c1, evs, heq, _, _, _⟩ := with_try_extract_ok env c n images hu hp
  cases hf : config.output_format with
  | Cbz =>
      have hsh := with_try_shape { c1 with processed_files := images } (cbzStep env)
        (cbzStep_shape env _)
      rcases hwb : Comic.with_try { c1 with processed_files := images }
        (cbzStep env) with ⟨rb, cB, evs2⟩
      rw [hwb] at hsh
      obtain ⟨_, hpf, _⟩ := hsh
      simp only at hpf
      simp only [processOne, heq, hf, hwb]
      exact ⟨hpf, fun c' hc' => by cases hc'⟩
  | Epub =>
      have hsh := with_try_shape { c1 with processed_files := images } (epubStep env)
        (epubStep_shape env _)
      rcases hwb : Comic.with_try { c1 with processed_files := images }
        (epubStep env) with ⟨rb, cB, evs2⟩
      rw [hwb] at hsh
      obtain ⟨_, hpf, _⟩ := hsh
      simp only at hpf
      simp only [processOne, heq, hf, hwb]
      exact ⟨hpf, fun c' hc' => by cases hc'⟩
  | Mobi =>
      have hsh := with_try_shape { c1 with processed_files := images } (mobiStep env)
        (mobiStep_shape env _)
      rcases hwb : Comic.with_try { c1 with processed_files := images }
        (mobiStep env) with ⟨rb, cB, evs2⟩
      rw [hwb] at hsh
      obtain ⟨_, hpf, _⟩ := hsh
      simp only at hpf
      cases rb with
      | none =>
          simp only [processOne, heq, hf, hwb]
          exact ⟨hpf, fun c' hc' => by cases hc'⟩
      | some _ =>
          simp only [processOne, heq, hf, hwb]
          refine ⟨hpf, fun c' hc' => ?_⟩
          cases hc'
          exact hpf

/-! ### No `Success` update is emitted on the Mobi worker path -/

theorem noSuccessIn_nil : noSuccessIn [] := by
  intro i hi
  cases hi

theorem noSuccessIn_append {a b : List Event} (ha : noSuccessIn a)
    (hb : noSuccessIn b) : noSuccessIn (a ++ b) := by
  intro i hi
  rcases List.mem_append.mp hi with h | h
  · exact ha i h
  · exact hb i h

theorem update_status_noSuccess (c : Comic) (stage : ComicStage) (p : Nat) :
    noSuccessIn (c.update_status stage p).2 := by
  unfold Comic.update_status
  split
  · exact noSuccessIn_nil
  · intro i hi
    simp at hi

theorem fail_noSuccess (c : Comic) (e : String) : noSuccessIn (c.fail e).2 := by
  unfold Comic.fail
  split
  · exact noSuccessIn_nil
  · intro i hi
    simp at hi

theorem with_try_noSuccess {α : Type} (c : Comic)
    (f : Comic → Except String α × Comic × List Event)
    (hf : noSuccessIn (f c).2.2) :
    noSuccessIn (Comic.with_try c f).2.2 := by
  rcases hr : f c with ⟨r, c1, evs⟩
  rw [hr] at hf
  simp only at hf
  cases r with
  | ok a =>
      unfold Comic.with_try
      simp only [hr]
      exact hf
  | error e =>
      unfold Comic.with_try
      simp only [hr]
      exact noSuccessIn_append hf (fail_noSuccess c1 e)

theorem extractStep_noSuccess (env : Env) (c : Comic) :
    noSuccessIn (extractStep env c).2.2 := by
  cases hu : env.unarchive c.id with
  | error e =>
      unfold extractStep
      simp only [hu]
      exact noSuccessIn_nil
  | ok n =>
      rcases hi : c.image_processing_start n with ⟨c1, e1⟩
      have h1 : noSuccessIn e1 := by
        have := update_status_noSuccess c .Process 0
        unfold Comic.image_processing_start at hi
        rw [hi] at this
        exact this
      cases hp : env.process_images c1.id with
      | error e =>
          unfold extractStep
          simp only [hu, hi, hp]
          exact h1
      | ok images =>
          rcases hic : c1.image_processing_complete with ⟨c2, e2⟩
          have h2 : noSuccessIn e2 := by
            have := update_status_noSuccess c1 .Process 100
            unfold Comic.image_processing_complete Comic.stage_completed at hic
            rw [hic] at this
            exact this
          unfold extractStep
          simp only [hu, hi, hp, hic]
          exact noSuccessIn_append h1 h2

theorem mobiStep_noSuccess (env : Env) (c : Comic) :
    noSuccessIn (mobiStep env c).2.2 := by
  rcases hu : c.update_status .Package 50 with ⟨c1, e1⟩
  have h1 : noSuccessIn e1 := by
    have := update_status_noSuccess c .Package 50
    rw [hu] at this
    exact this
  cases hb : env.build_epub c1.id with
  | error e =>
      unfold mobiStep
      simp only [hu, hb]
      exact h1
  | ok u =>
      cases u
      rcases hsc : c1.stage_completed .Package with ⟨c2, e2⟩
      have h2 : noSuccessIn e2 := by
        have := update_status_noSuccess c1 .Package 100
        unfold Comic.stage_completed at hsc
        rw [hsc] at this
        exact this
      unfold mobiStep
      simp only [hu, hb, hsc]
      exact noSuccessIn_append h1 h2

/-- On the Mobi path the dispatcher never emits a `Success` update: success
is only ever marked by the supervisor. -/
theorem processOne_mobi_noSuccess (env : Env) (config : ComicConfig) (c : Comic)
    (hfmt : config.output_format = .Mobi) :
    noSuccessIn (processOne env config c).2.1 := by
  have hex := with_try_noSuccess c (extractStep env) (extractStep_noSuccess env c)
  rcases hwt : Comic.with_try c (extractStep env) with ⟨r, c1, evs⟩
  rw [hwt] at hex
  simp only at hex
  cases r with
  | none =>
      simp only [processOne, hwt]
      exact hex
  | some images =>
      have hmb := with_try_noSuccess { c1 with processed_files := images }
        (mobiStep env) (mobiStep_noSuccess env _)
      rcases hwb : Comic.with_try { c1 with processed_files := images }
        (mobiStep env) with ⟨rb, cB, evs2⟩
      rw [hwb] at hmb
      simp only at hmb
      cases rb with
      | none =>
          simp only [processOne, hwt, hfmt, hwb]
          exact noSuccessIn_append hex hmb
      | some _ =>
          simp only [processOne, hwt, hfmt, hwb]
          exact noSuccessIn_append hex hmb

/-- Terminality of the worker outcome: a not-yet-terminal entity either gets
a terminal update from its worker, or (Mobi only) is queued, not yet
terminal, for the supervisor. -/
theorem processOne_cases (env : Env) (config : ComicConfig) (c : Comic)
    (h : c.status.isTerminal = false) :
    (config.output_format ≠ .Mobi →
       hasTerminalFor c.id (processOne env config c).2.1) ∧
    (config.output_format = .Mobi →
       (hasTerminalFor c.id (processOne env config c).2.1 ∧
         (processOne env config c).2.2 = none) ∨
       ∃ c', (processOne env config c).2.2 = some c' ∧ c'.id = c.id ∧
         c'.status.isTerminal = false) := by
  rcases with_try_extract_cases env c h with
    ⟨images, c1, evs, heq, ht1, hid1, _⟩ | ⟨c1, evs, heq, hterm⟩
  · have hcAt : ({ c1 with processed_files := images } : Comic).status.isTerminal
        = false := ht1
    have hcAid : ({ c1 with processed_files := images } : Comic).id = c.id := hid1
    constructor
    · intro hfmt
      cases hf : config.output_format with
      | Cbz =>
          have htm := with_try_cbz_terminal env
            { c1 with processed_files := images } hcAt
          rcases hwb : Comic.with_try { c1 with processed_files := images }
            (cbzStep env) with ⟨rb, cB, evs2⟩
          rw [hwb] at htm
          simp only at htm
          simp only [processOne, heq, hf, hwb]
          exact hasTerminalFor_appendR _ (hcAid ▸ htm)
      | Epub =>
          have htm := with_try_epub_terminal env
            { c1 with processed_files := images } hcAt
          rcases hwb : Comic.with_try { c1 with processed_files := images }
            (epubStep env) with ⟨rb, cB, evs2⟩
          rw [hwb] at htm
          simp only at htm
          simp only [processOne, heq, hf, hwb]
          exact hasTerminalFor_appendR _ (hcAid ▸ htm)
      | Mobi => exact absurd hf hfmt
    · intro hfmt
      rcases with_try_mobi_cases env { c1 with processed_files := images } hcAt with
        ⟨c2, evs2, heqm, ht2, hid2⟩ | ⟨c2, evs2, heqm, htm⟩
      · right
        simp only [processOne, heq, hfmt, heqm]
        exact ⟨c2, rfl, hid2.trans hcAid, ht2⟩
      · left
        simp only [processOne, heq, hfmt, heqm]
        exact ⟨hasTerminalFor_appendR _ (hcAid ▸ htm), trivial⟩
  · constructor
    · intro _
      simp only [processOne, heq]
      exact hterm
    · intro _
      left
      simp only [processOne, heq]
      exact ⟨hterm, trivial⟩

/-! ### Batch-level glue lemmas -/

theorem eventsFor_eq_nil_of (i : Nat) (evs : List Event)
    (h : ∀ e ∈ evs, e.idOf ≠ some i) : eventsFor i evs = [] := by
  unfold eventsFor
  rw [List.filter_eq_nil_iff]
  intro e he
  simp only [decide_eq_true_eq]
  exact h e he

theorem registerOne_noPC (env : Env) (config : ComicConfig) (out : String)
    (k : Nat) (f : PathBuf) :
    ∀ e ∈ (registerOne env config out k f).1, e.isPC = false := by
  cases hnew : env.comic_new k <;>
    · intro e he
      simp [registerOne, hnew] at he
      rcases he with rfl | rfl <;> rfl

theorem registerFrom_noPC (env : Env) (config : ComicConfig) (out : String)
    (files : List PathBuf) : ∀ k, ∀ e ∈ (registerFrom env config out k files).1,
      e.isPC = false := by
  induction files with
  | nil => intro k e he; cases he
  | cons f rest ih =>
      intro k e he
      rcases List.mem_append.mp he with h | h
      · exact registerOne_noPC env config out k f e h
      · exact ih (k + 1) e h

theorem registerOne_noReg_tail (env : Env) (config : ComicConfig) (out : String)
    (k : Nat) (f : PathBuf) :
    ∃ tail, (registerOne env config out k f).1 =
      .Progress (.RegisterComic k (titleOf f)) :: tail ∧
      ∀ e ∈ tail, e.isReg = false := by
  cases hnew : env.comic_new k with
  | ok u =>
      refine ⟨[], by simp [registerOne, hnew], ?_⟩
      intro e he
      cases he
  | error e =>
      refine ⟨[.Progress (.ComicUpdate k (.Failed e))], by simp [registerOne, hnew], ?_⟩
      intro ev hev
      rcases List.mem_singleton.mp hev with rfl
      rfl

/-- A terminal `Failed` update is emitted during registration for every file
whose entity construction fails. -/
theorem registerFrom_failed_terminal (env : Env) (config : ComicConfig)
    (out : String) (files : List PathBuf) (k j : Nat) (f : PathBuf) (e : String)
    (hf : files[j]? = some f) (hnew : env.comic_new (k + j) = .error e) :
    hasTerminalFor (k + j) (registerFrom env config out k files).1 := by
  have hev := registerFrom_eventsFor_mem env config out files k j f hf
  have hmem : Event.Progress (.ComicUpdate (k + j) (.Failed e)) ∈
      (registerOne env config out (k + j) f).1 := by
    simp [registerOne, hnew]
  rw [← hev] at hmem
  exact ⟨.Failed e, rfl, List.mem_of_mem_filter hmem⟩

theorem registerFrom_entries_get (env : Env) (config : ComicConfig) (out : String)
    (files : List PathBuf) : ∀ k i f, files[i]? = some f →
      (registerEntries (registerFrom env config out k files).1)[i]? =
        some (k + i, titleOf f) := by
  induction files with
  | nil => intro k i f hf; simp at hf
  | cons f0 rest ih =>
      intro k i f hf
      have hsplit : registerEntries (registerFrom env config out k (f0 :: rest)).1 =
          (k, titleOf f0) :: registerEntries (registerFrom env config out (k + 1) rest).1 := by
        have : registerFrom env config out k (f0 :: rest) =
            ((registerOne env config out k f0).1 ++
               (registerFrom env config out (k + 1) rest).1,
             (registerOne env config out k f0).2.toList ++
               (registerFrom env config out (k + 1) rest).2) := rfl
        rw [this]
        simp only [registerEntries_append, registerOne_entries]
        rfl
      rw [hsplit]
      cases i with
      | zero =>
          rw [List.getElem?_cons_zero] at hf
          cases hf
          rw [List.getElem?_cons_zero, Nat.add_zero]
      | succ i' =>
          rw [List.getElem?_cons_succ] at hf
          rw [List.getElem?_cons_succ]
          rw [show k + (i' + 1) = (k + 1) + i' by omega]
          exact ih (k + 1) i' f hf

/-- Every event of the worker fan-out is a `ComicUpdate` for one of the
processed entities. -/
theorem workerEvents_mem (env : Env) (config : ComicConfig) (comics : List Comic) :
    ∀ e ∈ (comics.map (processOne env config)).flatMap (fun r => r.2.1),
      ∃ cm ∈ comics, ∃ u, e = .Progress (.ComicUpdate cm.id u) := by
  intro e he
  rw [List.mem_flatMap] at he
  obtain ⟨r, hr, he'⟩ := he
  rw [List.mem_map] at hr
  obtain ⟨cm, hcm, rfl⟩ := hr
  obtain ⟨u, hu⟩ := (processOne_shape env config cm).2.1 e he'
  exact ⟨cm, hcm, u, hu⟩

/-- Every entity queued to the supervisor carries the id of one of the
processed entities. -/
theorem sent_ids (env : Env) (config : ComicConfig) (comics : List Comic) :
    ∀ c' ∈ (comics.map (processOne env config)).filterMap (fun r => r.2.2),
      ∃ cm ∈ comics, c'.id = cm.id := by
  intro c' h
  rw [List.mem_filterMap] at h
  obtain ⟨r, hr, hc'⟩ := h
  rw [List.mem_map] at hr
  obtain ⟨cm, hcm, rfl⟩ := hr
  exact ⟨cm, hcm, (processOne_shape env config cm).2.2 c' hc'⟩

theorem supRunN_noPC (env : Env) (arrive : Nat → List Comic)
    (closeAt fuel n : Nat) (st : SupState) :
    ((supRunN env arrive closeAt fuel n st).2.1).countP Event.isPC = 0 := by
  rw [List.countP_eq_zero]
  intro e he
  obtain ⟨i, _, u, hu⟩ := supRunN_emits env arrive closeAt (fun _ => True)
    (fun _ _ _ => trivial) fuel n st (fun _ _ => trivial) e he
  rw [hu]
  simp [Event.isPC]

theorem kindlegenThread_exit_flag (env : Env) (arrive : Nat → List Comic)
    (closeAt fuel : Nat) :
    (kindlegenThread env arrive closeAt fuel).2 =
      (supRunN env arrive closeAt fuel 0 SupState.init).2.2 := rfl

theorem kindlegenThread_exited (env : Env) (arrive : Nat → List Comic)
    (closeAt fuel : Nat)
    (h : (supRunN env arrive closeAt fuel 0 SupState.init).2.2 = true) :
    (kindlegenThread env arrive closeAt fuel).1 =
      (supRunN env arrive closeAt fuel 0 SupState.init).2.1 ++
        [.Progress .ProcessingComplete] := by
  simp only [kindlegenThread, h, if_true]

theorem kindlegenThread_events_mem (env : Env) (arrive : Nat → List Comic)
    (closeAt fuel : Nat) :
    ∀ e ∈ (kindlegenThread env arrive closeAt fuel).1,
      e ∈ (supRunN env arrive closeAt fuel 0 SupState.init).2.1 ∨
        e = .Progress .ProcessingComplete := by
  intro e he
  by_cases hb : (supRunN env arrive closeAt fuel 0 SupState.init).2.2 = true
  · simp only [kindlegenThread, hb, if_true] at he
    rcases List.mem_append.mp he with h | h
    · exact Or.inl h
    · exact Or.inr (List.mem_singleton.mp h)
  · have hb' := Bool.not_eq_true _ |>.mp hb
    simp only [kindlegenThread, hb', Bool.false_eq_true, if_false] at he
    exact Or.inl he

/-! ### Claim theorems -/

/-- C7: for every entity received by the supervisor whose external-process
spawn fails, the entity is marked `Failed` and reported, and no record for it
is appended to the in-flight set; a record is appended exactly when the spawn
succeeds. -/
theorem C7_spawn_failure_never_inflight (env : Env) (st : SupState) (c : Comic)
    (h : c.status.isTerminal = false) :
    (∀ e, env.create_mobi c.id = .error e →
       (drainOne env st c).1.pending = st.pending ∧
       Event.Progress (.ComicUpdate c.id (.Failed e)) ∈ (drainOne env st c).2) ∧
    ((∃ r, (drainOne env st c).1.pending = st.pending ++ [r] ∧ r.comic.id = c.id) ↔
       env.create_mobi c.id = .ok ()) := by
  constructor
  · intro e hcm
    rw [drainOne_err env st c e hcm]
    simp only [update_status_nonterm c .Convert 75 h,
      fail_nonterm { c with status := ComicStatus.InProgress .Convert 75 } e rfl]
    simp
  · constructor
    · rintro ⟨r, hp, _⟩
      cases hcm : env.create_mobi c.id with
      | ok u => cases u; rfl
      | error e =>
          rw [drainOne_err env st c e hcm] at hp
          simp only at hp
          have hlen := congrArg List.length hp
          simp at hlen
    · intro hcm
      rw [drainOne_ok env st c hcm]
      exact ⟨⟨(c.update_status .Convert 75).1⟩, rfl,
        (update_status_shape c .Convert 75).1⟩

theorem C7_witness :
    (drainOne envSpawnFail SupState.init comicW).1.pending = SupState.init.pending ∧
    Event.Progress (.ComicUpdate comicW.id (.Failed "spawn failed")) ∈
      (drainOne envSpawnFail SupState.init comicW).2 :=
  (C7_spawn_failure_never_inflight envSpawnFail SupState.init comicW rfl).1
    "spawn failed" rfl

/-- C8 (amended): after every poll cycle — and along any run of the loop —
the number of in-flight records equals the number of items received from the
queue minus the records finalized after a finished check minus the entities
whose spawn failed (which never enter the set). -/
theorem C8_inflight_accounting (env : Env) (arrive : Nat → List Comic)
    (closeAt n : Nat) (st : SupState) (h : st.accounted) :
    (supCycle env arrive closeAt n st).1.accounted ∧
    ∀ fuel, (supRunN env arrive closeAt fuel n st).1.accounted :=
  ⟨supCycle_accounted env arrive closeAt n st h,
   fun fuel => supRunN_accounted env arrive closeAt fuel n st h⟩

theorem C8_witness :
    SupState.init.accounted ∧
    (supCycle envSpawnFail arriveOne 1 0 SupState.init).1.accounted :=
  ⟨rfl, (C8_inflight_accounting envSpawnFail arriveOne 1 0 SupState.init rfl).1⟩

/-- C8 counterexample: with one enqueued entity whose spawn fails, after the
first poll cycle the in-flight set is empty while one item was enqueued and
none was finalized, so `pending = enqueued − finalized` fails. -/
theorem C8_counterexample :
    ¬ ((supCycle envSpawnFail arriveOne 1 0 SupState.init).1.pending.length =
       (supCycle envSpawnFail arriveOne 1 0 SupState.init).1.received -
         (supCycle envSpawnFail arriveOne 1 0 SupState.init).1.finalized) := by
  decide

/-- C9: a record whose non-blocking check reports it finished — by process
completion or by a check error — undergoes the blocking collection and is
removed from the in-flight set in the same poll cycle (the kept records are
exactly those still reported running), whatever the blocking collection
returns; and a record whose entity already carries a terminal status is never
downgraded by the collection path. -/
theorem C9_finished_records_removed (env : Env) (n : Nat) (s : KindleGenStatus) :
    (env.try_wait s.comic.id n ≠ .NotDone →
       pollOne env n s = (none, (collectRecord env s).2)) ∧
    (∀ pending, (pollPhase env n pending).1 =
       pending.filter (fun r => decide (env.try_wait r.comic.id n = .NotDone))) ∧
    (s.comic.status.isTerminal = true →
       (collectRecord env s).1.status = s.comic.status) :=
  ⟨pollOne_done env n s, pollPhase_kept_filter env n,
   collectRecord_preserves_terminal env s⟩

theorem C9_witness :
    pollOne envWaitErr 0 recSuccess = (none, (collectRecord envWaitErr recSuccess).2) ∧
    (collectRecord envWaitErr recSuccess).1.status = recSuccess.comic.status :=
  ⟨(C9_finished_records_removed envWaitErr 0 recSuccess).1 (by decide),
   (C9_finished_records_removed envWaitErr 0 recSuccess).2.2 rfl⟩

/-- C2: one cycle of the supervisor loop exits exactly when the queue is
permanently closed and the in-flight set (after draining) is empty — a
condition re-evaluated every outer iteration; whenever the loop has exited,
its final in-flight set is empty, and the kindlegen thread then emits exactly
one `ProcessingComplete`, after all other events. -/
theorem C2_supervisor_termination (env : Env) (arrive : Nat → List Comic)
    (closeAt : Nat) :
    (∀ n st, (supCycle env arrive closeAt n st).2.2 = true ↔
       (closeAt ≤ n ∧ (drainPhase env st (arrive n)).1.pending = [])) ∧
    (∀ fuel n st, (supRunN env arrive closeAt fuel n st).2.2 = true →
       (supRunN env arrive closeAt fuel n st).1.pending = []) ∧
    (∀ fuel, (kindlegenThread env arrive closeAt fuel).2 = true →
       ∃ pre, (kindlegenThread env arrive closeAt fuel).1 =
         pre ++ [.Progress .ProcessingComplete] ∧
         pre.countP Event.isPC = 0) := by
  refine ⟨fun n st => supCycle_exit_iff env arrive closeAt n st,
    supRunN_exit_pending env arrive closeAt, ?_⟩
  intro fuel hex
  rw [kindlegenThread_exit_flag] at hex
  exact ⟨(supRunN env arrive closeAt fuel 0 SupState.init).2.1,
    kindlegenThread_exited env arrive closeAt fuel hex,
    supRunN_noPC env arrive closeAt fuel 0 SupState.init⟩

theorem C2_witness :
    ((supCycle envW arriveNone 0 0 SupState.init).2.2 = true) ∧
    ∃ pre, (kindlegenThread envW arriveNone 0 1).1 =
      pre ++ [.Progress .ProcessingComplete] ∧ pre.countP Event.isPC = 0 :=
  ⟨((C2_supervisor_termination envW arriveNone 0).1 0 SupState.init).mpr
     ⟨Nat.le_refl 0, rfl⟩,
   (C2_supervisor_termination envW arriveNone 0).2.2 1 (by decide)⟩

theorem batchArrive_zero (sent : List Comic) : batchArrive sent 0 = sent := rfl

theorem batchArrive_pos (sent : List Comic) (m : Nat) (h : 0 < m) :
    batchArrive sent m = [] := by
  simp [batchArrive]
  omega

theorem batchRun_eq_mobi (env : Env) (config : ComicConfig) (out : String)
    (files : List PathBuf) (fuel : Nat) (hfmt : config.output_format = .Mobi) :
    batchRun env config out files fuel =
      ((registerPass env config out files).1 ++
         (((registerPass env config out files).2.map
            (processOne env config)).flatMap (fun r => r.2.1)) ++
         (kindlegenThread env
           (batchArrive (((registerPass env config out files).2.map
              (processOne env config)).filterMap (fun r => r.2.2))) 0 fuel).1,
       (kindlegenThread env
         (batchArrive (((registerPass env config out files).2.map
            (processOne env config)).filterMap (fun r => r.2.2))) 0 fuel).2) := by
  simp only [batchRun, hfmt]

theorem batchRun_eq_other (env : Env) (config : ComicConfig) (out : String)
    (files : List PathBuf) (fuel : Nat) (hfmt : config.output_format ≠ .Mobi) :
    batchRun env config out files fuel =
      ((registerPass env config out files).1 ++
         (((registerPass env config out files).2.map
            (processOne env config)).flatMap (fun r => r.2.1)) ++
         [.Progress .ProcessingComplete], true) := by
  cases hfc : config.output_format with
  | Cbz => simp only [batchRun, hfc]
  | Epub => simp only [batchRun, hfc]
  | Mobi => exact absurd hfc hfmt

/-- C10: a file whose path has no file stem is still registered, with the
empty string as its derived title, and entity construction is still
attempted for it (yielding an entity with the empty title when it succeeds). -/
theorem C10_no_stem_empty_title (env : Env) (config : ComicConfig) (out : String)
    (files : List PathBuf) (i : Nat) (f : PathBuf)
    (hf : files[i]? = some f) (hstem : f.file_stem = none) :
    (registerEntries (registerPass env config out files).1)[i]? = some (i, "") ∧
    (env.comic_new i = .ok () →
       ∃ c ∈ (registerPass env config out files).2, c.id = i ∧ c.title = "") := by
  have htitle : titleOf f = "" := by simp [titleOf, hstem]
  constructor
  · have hg := registerFrom_entries_get env config out files 0 i f hf
    rw [Nat.zero_add, htitle] at hg
    exact hg
  · intro hok
    have hmem := registerFrom_comics_mem env config out files 0 i f
      hf (by rw [Nat.zero_add]; exact hok)
    rw [Nat.zero_add] at hmem
    exact ⟨Comic.new i f out (titleOf f) config, hmem, rfl, htitle⟩

theorem C10_witness :
    (registerEntries (registerPass envW ⟨OutputFormat.Cbz⟩ "out" [fileNoStem]).1)[0]? =
      some (0, "") ∧
    ∃ c ∈ (registerPass envW ⟨OutputFormat.Cbz⟩ "out" [fileNoStem]).2,
      c.id = 0 ∧ c.title = "" := by
  have h := C10_no_stem_empty_title envW ⟨OutputFormat.Cbz⟩ "out" [fileNoStem] 0
    fileNoStem rfl rfl
  exact ⟨h.1, h.2 rfl⟩

/-- C4: a file whose entity construction fails contributes exactly its
registration event and one terminal `Failed` update to the whole batch trace
— it never enters the pipeline and produces nothing else — no constructed
entity carries its id, and every other constructible file still yields its
entity. -/
theorem C4_construction_failure_isolated (env : Env) (config : ComicConfig)
    (out : String) (files : List PathBuf) (fuel : Nat) (i : Nat) (f : PathBuf)
    (e : String) (hf : files[i]? = some f) (hnew : env.comic_new i = .error e) :
    eventsFor i (batchRun env config out files fuel).1 =
      [.Progress (.RegisterComic i (titleOf f)),
       .Progress (.ComicUpdate i (.Failed e))] ∧
    (∀ c ∈ (registerPass env config out files).2, c.id ≠ i) ∧
    (∀ j g, files[j]? = some g → j ≠ i → env.comic_new j = .ok () →
       Comic.new j g out (titleOf g) config ∈ (registerPass env config out files).2) := by
  have hcomics : ∀ c ∈ (registerPass env config out files).2, c.id ≠ i := by
    intro c hc hci
    have hchar := registerFrom_comics env config out files 0 c hc
    have hok := hchar.2.2.1
    rw [hci, hnew] at hok
    cases hok
  have hreg : eventsFor i (registerPass env config out files).1 =
      [.Progress (.RegisterComic i (titleOf f)),
       .Progress (.ComicUpdate i (.Failed e))] := by
    have hev := registerFrom_eventsFor_mem env config out files 0 i f hf
    rw [Nat.zero_add] at hev
    unfold registerPass
    rw [hev]
    simp [registerOne, hnew]
  have hworker : eventsFor i
      (((registerPass env config out files).2.map (processOne env config)).flatMap
        (fun r => r.2.1)) = [] := by
    apply eventsFor_eq_nil_of
    intro ev hev
    obtain ⟨cm, hcm, u, hu⟩ := workerEvents_mem env config _ ev hev
    rw [hu]
    simp only [Event.idOf, ne_eq, Option.some.injEq]
    exact hcomics cm hcm
  refine ⟨?_, hcomics, ?_⟩
  · by_cases hfc : config.output_format = .Mobi
    · rw [batchRun_eq_mobi env config out files fuel hfc]
      simp only
      rw [eventsFor_append_eq, eventsFor_append_eq, hreg, hworker]
      have hk : eventsFor i
          (kindlegenThread env
            (batchArrive (((registerPass env config out files).2.map
               (processOne env config)).filterMap (fun r => r.2.2))) 0 fuel).1 = [] := by
        apply eventsFor_eq_nil_of
        intro ev hev
        rcases kindlegenThread_events_mem env _ 0 fuel ev hev with h | rfl
        · obtain ⟨id, hid, u, hu⟩ := supRunN_emits env _ 0 (fun id => id ≠ i)
            (by
              intro m c hc
              by_cases hm : m = 0
              · subst hm
                rw [batchArrive_zero] at hc
                obtain ⟨cm, hcm, hceq⟩ := sent_ids env config _ c hc
                rw [hceq]
                exact hcomics cm hcm
              · rw [batchArrive_pos _ m (by omega)] at hc
                cases hc)
            fuel 0 SupState.init (by intro s hs; cases hs) ev h
          rw [hu]
          simp only [Event.idOf, ne_eq, Option.some.injEq]
          exact hid
        · simp [Event.idOf]
      rw [hk]
      simp
    · rw [batchRun_eq_other env config out files fuel hfc]
      simp only
      rw [eventsFor_append_eq, eventsFor_append_eq, hreg, hworker]
      have hpc : eventsFor i [Event.Progress .ProcessingComplete] = [] := by
        simp [eventsFor, Event.idOf]
      rw [hpc]
      simp
  · intro j g hg _hji hok
    have hmem := registerFrom_comics_mem env config out files 0 j g
      hg (by rw [Nat.zero_add]; exact hok)
    rw [Nat.zero_add] at hmem
    exact hmem

theorem C4_witness :
    eventsFor 0 (batchRun envNewFail ⟨OutputFormat.Cbz⟩ "out" [fileW] 1).1 =
      [.Progress (.RegisterComic 0 (titleOf fileW)),
       .Progress (.ComicUpdate 0 (.Failed "bad archive"))] ∧
    ∀ c ∈ (registerPass envNewFail ⟨OutputFormat.Cbz⟩ "out" [fileW]).2, c.id ≠ 0 := by
  have h := C4_construction_failure_isolated envNewFail ⟨OutputFormat.Cbz⟩ "out"
    [fileW] 1 0 fileW "bad archive" rfl rfl
  exact ⟨h.1, h.2.1⟩

/-- C5: `processed_files` is written exactly once, to the transformation
result, and only after extraction plus transformation succeed — afterwards it
is never mutated, including in the queued copy of the entity; when extraction
fails the worker emits only the terminal `Failed` update (no later stage
runs) and the list stays empty; when the transformation fails the worker
emits only the transformation-start update and the terminal `Failed` update,
and the list stays empty. -/
theorem C5_processed_files_written_once (env : Env) (config : ComicConfig)
    (c : Comic) (hterm : c.status.isTerminal = false)
    (hpf : c.processed_files = []) :
    (∀ e, env.unarchive c.id = .error e →
       (processOne env config c).1.processed_files = [] ∧
       (processOne env config c).2.2 = none ∧
       (processOne env config c).2.1 =
         [.Progress (.ComicUpdate c.id (.Failed e))]) ∧
    (∀ n e, env.unarchive c.id = .ok n → env.process_images c.id = .error e →
       (processOne env config c).1.processed_files = [] ∧
       (processOne env config c).2.2 = none ∧
       (processOne env config c).2.1 =
         [.Progress (.ComicUpdate c.id (.InProgress .Process 0)),
          .Progress (.ComicUpdate c.id (.Failed e))]) ∧
    (∀ n images, env.unarchive c.id = .ok n →
       env.process_images c.id = .ok images →
       (processOne env config c).1.processed_files = images ∧
       ∀ c', (processOne env config c).2.2 = some c' →
         c'.processed_files = images) := by
  refine ⟨?_, ?_, ?_⟩
  · intro e hu
    rw [processOne_unarchive_err env config c e hterm hu]
    exact ⟨hpf, rfl, rfl⟩
  · intro n e hu hp
    rw [processOne_images_err env config c n e hterm hu hp]
    exact ⟨hpf, rfl, rfl⟩
  · intro n images hu hp
    exact processOne_processed_files env config c n images hu hp

theorem C5_witness :
    (processOne envUnarchiveFail ⟨OutputFormat.Cbz⟩ comicCbz).1.processed_files = [] ∧
    (processOne envUnarchiveFail ⟨OutputFormat.Cbz⟩ comicCbz).2.2 = none ∧
    (processOne envUnarchiveFail ⟨OutputFormat.Cbz⟩ comicCbz).2.1 =
      [.Progress (.ComicUpdate comicCbz.id (.Failed "corrupt archive"))] :=
  (C5_processed_files_written_once envUnarchiveFail ⟨OutputFormat.Cbz⟩ comicCbz
    rfl rfl).1 "corrupt archive" rfl

/-- C6: a Mobi entity is enqueued to the supervisor exactly when extraction,
transformation and the e-book assembly all succeed (so at most once, through
the single `Option`-valued hand-off), the Mobi worker path never emits a
`Success` update and the queued entity is not marked `Success`; entities of
the other two formats are never enqueued. -/
theorem C6_mobi_enqueue_no_success (env : Env) (config : ComicConfig) (c : Comic)
    (hterm : c.status.isTerminal = false) :
    (config.output_format ≠ .Mobi → (processOne env config c).2.2 = none) ∧
    (config.output_format = .Mobi →
       ((processOne env config c).2.2.isSome = true ↔
          (∃ n, env.unarchive c.id = .ok n) ∧
          (∃ images, env.process_images c.id = .ok images) ∧
          env.build_epub c.id = .ok ()) ∧
       noSuccessIn (processOne env config c).2.1 ∧
       (∀ c', (processOne env config c).2.2 = some c' →
          c'.status ≠ .Success)) := by
  refine ⟨processOne_sent_none env config c, fun hfmt => ⟨?_, ?_, ?_⟩⟩
  · constructor
    · intro hsome
      rcases hwt : Comic.with_try c (extractStep env) with ⟨r, c1, evs⟩
      cases r with
      | none =>
          rw [show (processOne env config c).2.2 = none by
            simp only [processOne, hwt]] at hsome
          cases hsome
      | some images =>
          have hinv : (∃ n, env.unarchive c.id = .ok n) ∧
              env.process_images c.id = .ok images :=
            with_try_extract_some_inv env c images (by rw [hwt])
          have hid1 : c1.id = c.id := by
            have := (with_try_shape c (extractStep env) (extractStep_shape env c)).1
            rw [hwt] at this
            exact this
          rcases hwb : Comic.with_try { c1 with processed_files := images }
            (mobiStep env) with ⟨rb, cB, evs2⟩
          cases rb with
          | none =>
              rw [show (processOne env config c).2.2 = none by
                simp only [processOne, hwt, hfmt, hwb]] at hsome
              cases hsome
          | some u =>
              have hb : env.build_epub c.id = .ok () := by
                have := (with_try_mobi_some_iff env
                  { c1 with processed_files := images }).mp (by rw [hwb]; rfl)
                rw [show ({ c1 with processed_files := images } : Comic).id = c.id
                  from hid1] at this
                exact this
              exact ⟨hinv.1, ⟨images, hinv.2⟩, hb⟩
    · rintro ⟨⟨n, hu⟩, ⟨images, hp⟩, hb⟩
      obtain ⟨c1, evs, heq, hid1, _, _⟩ := with_try_extract_ok env c n images hu hp
      have hsome := (with_try_mobi_some_iff env
        { c1 with processed_files := images }).mpr
        (by rw [show ({ c1 with processed_files := images } : Comic).id = c.id
          from hid1]; exact hb)
      rcases hwb : Comic.with_try { c1 with processed_files := images }
        (mobiStep env) with ⟨rb, cB, evs2⟩
      rw [hwb] at hsome
      simp only at hsome
      cases rb with
      | none => cases hsome
      | some u =>
          rw [show (processOne env config c).2.2 = some cB by
            simp only [processOne, heq, hfmt, hwb]]
          rfl
  · exact processOne_mobi_noSuccess env config c hfmt
  · intro c' hsent hsucc
    rcases (processOne_cases env config c hterm).2 hfmt with ⟨_, hnone⟩ | ⟨c'', hs, _, ht⟩
    · rw [hnone] at hsent
      cases hsent
    · rw [hs] at hsent
      obtain rfl := Option.some.inj hsent
      rw [hsucc] at ht
      cases ht

theorem registerEntries_eq_nil_of (evs : List Event)
    (h : ∀ e ∈ evs, e.isReg = false) : registerEntries evs = [] := by
  unfold registerEntries
  rw [List.filterMap_eq_nil_iff]
  intro e he
  cases e with
  | Progress p =>
      cases p with
      | RegisterComic i t =>
          have := h _ he
          simp [Event.isReg] at this
      | ComicUpdate i s => rfl
      | ProcessingComplete => rfl

theorem workerEvents_noReg (env : Env) (config : ComicConfig) (comics : List Comic) :
    ∀ e ∈ (comics.map (processOne env config)).flatMap (fun r => r.2.1),
      e.isReg = false := by
  intro e he
  obtain ⟨cm, _, u, hu⟩ := workerEvents_mem env config comics e he
  rw [hu]
  rfl

theorem kindlegenThread_noReg (env : Env) (arrive : Nat → List Comic)
    (closeAt fuel : Nat) :
    ∀ e ∈ (kindlegenThread env arrive closeAt fuel).1, e.isReg = false := by
  intro e he
  rcases kindlegenThread_events_mem env arrive closeAt fuel e he with h | rfl
  · obtain ⟨i, _, u, hu⟩ := supRunN_emits env arrive closeAt (fun _ => True)
      (fun _ _ _ => trivial) fuel 0 SupState.init (fun _ h' => by cases h') e h
    rw [hu]
    rfl
  · rfl

theorem eventsFor_sub (i : Nat) (evs : List Event) :
    ∀ e ∈ eventsFor i evs, e ∈ evs :=
  fun _ he => List.mem_of_mem_filter he

theorem registerFrom_entries_length (env : Env) (config : ComicConfig)
    (out : String) (files : List PathBuf) (k : Nat) :
    (registerEntries (registerFrom env config out k files).1).length =
      files.length := by
  rw [registerFrom_entries]
  simp [List.length_zip]

theorem registerFrom_entries_fst (env : Env) (config : ComicConfig)
    (out : String) (files : List PathBuf) :
    (registerEntries (registerFrom env config out 0 files).1).map Prod.fst =
      List.range files.length := by
  rw [registerFrom_entries, List.map_fst_zip]
  · exact (List.range_eq_range' files.length).symm
  · simp

/-- C3: for N input files the batch emits exactly N registration events,
one per file in input order during the sequential pass, carrying exactly the
ids 0..N−1 (the arrival indices) with the derived titles, and for each file
its registration event strictly precedes every other event referring to its
id (in particular every `ComicUpdate`). -/
theorem C3_registration_order (env : Env) (config : ComicConfig) (out : String)
    (files : List PathBuf) (fuel : Nat) :
    (registerEntries (batchRun env config out files fuel).1).length =
      files.length ∧
    (∀ (i : Nat) (f : PathBuf), files[i]? = some f →
       (registerEntries (batchRun env config out files fuel).1)[i]? =
         some (i, titleOf f)) ∧
    ((registerEntries (batchRun env config out files fuel).1).map Prod.fst =
       List.range files.length) ∧
    (∀ (i : Nat) (f : PathBuf), files[i]? = some f →
       ∃ rest, eventsFor i (batchRun env config out files fuel).1 =
         .Progress (.RegisterComic i (titleOf f)) :: rest ∧
         ∀ ev ∈ rest, ev.isReg = false) := by
  have hentries : registerEntries (batchRun env config out files fuel).1 =
      registerEntries (registerPass env config out files).1 := by
    by_cases hfc : config.output_format = .Mobi
    · rw [batchRun_eq_mobi env config out files fuel hfc]
      simp only
      rw [registerEntries_append, registerEntries_append,
        registerEntries_eq_nil_of _ (workerEvents_noReg env config _),
        registerEntries_eq_nil_of _ (kindlegenThread_noReg env _ 0 fuel)]
      simp
    · rw [batchRun_eq_other env config out files fuel hfc]
      simp only
      rw [registerEntries_append, registerEntries_append,
        registerEntries_eq_nil_of _ (workerEvents_noReg env config _),
        registerEntries_eq_nil_of [Event.Progress .ProcessingComplete]
          (by intro e he; rcases List.mem_singleton.mp he with rfl; rfl)]
      simp
  refine ⟨?_, ?_, ?_, ?_⟩
  · rw [hentries]
    exact registerFrom_entries_length env config out files 0
  · intro i f hf
    rw [hentries]
    have hg := registerFrom_entries_get env config out files 0 i f hf
    rw [Nat.zero_add] at hg
    exact hg
  · rw [hentries]
    exact registerFrom_entries_fst env config out files
  · intro i f hf
    have hev : eventsFor i (registerPass env config out files).1 =
        (registerOne env config out i f).1 := by
      have h0 := registerFrom_eventsFor_mem env config out files 0 i f hf
      rw [Nat.zero_add] at h0
      exact h0
    obtain ⟨tail, htail, htailReg⟩ := registerOne_noReg_tail env config out i f
    by_cases hfc : config.output_format = .Mobi
    · rw [batchRun_eq_mobi env config out files fuel hfc]
      simp only
      rw [eventsFor_append_eq, eventsFor_append_eq, hev, htail]
      refine ⟨tail ++
        (eventsFor i (((registerPass env config out files).2.map
           (processOne env config)).flatMap (fun r => r.2.1)) ++
         eventsFor i (kindlegenThread env
           (batchArrive (((registerPass env config out files).2.map
              (processOne env config)).filterMap (fun r => r.2.2))) 0 fuel).1),
        by simp, ?_⟩
      intro ev hevm
      rcases List.mem_append.mp hevm with h | h
      · exact htailReg ev h
      · rcases List.mem_append.mp h with h' | h'
        · exact workerEvents_noReg env config _ ev (eventsFor_sub i _ ev h')
        · exact kindlegenThread_noReg env _ 0 fuel ev (eventsFor_sub i _ ev h')
    · rw [batchRun_eq_other env config out files fuel hfc]
      simp only
      rw [eventsFor_append_eq, eventsFor_append_eq, hev, htail]
      refine ⟨tail ++
        (eventsFor i (((registerPass env config out files).2.map
           (processOne env config)).flatMap (fun r => r.2.1)) ++
         eventsFor i [Event.Progress .ProcessingComplete]),
        by simp, ?_⟩
      intro ev hevm
      rcases List.mem_append.mp hevm with h | h
      · exact htailReg ev h
      · rcases List.mem_append.mp h with h' | h'
        · exact workerEvents_noReg env config _ ev (eventsFor_sub i _ ev h')
        · have := eventsFor_sub i _ ev h'
          rcases List.mem_singleton.mp this with rfl
          rfl

theorem C3_witness :
    (registerEntries (batchRun envW ⟨OutputFormat.Cbz⟩ "out" [fileW] 0).1)[0]? =
      some (0, titleOf fileW) ∧
    ∃ rest, eventsFor 0 (batchRun envW ⟨OutputFormat.Cbz⟩ "out" [fileW] 0).1 =
      .Progress (.RegisterComic 0 (titleOf fileW)) :: rest ∧
      ∀ ev ∈ rest, ev.isReg = false :=
  ⟨(C3_registration_order envW ⟨OutputFormat.Cbz⟩ "out" [fileW] 0).2.1 0 fileW rfl,
   (C3_registration_order envW ⟨OutputFormat.Cbz⟩ "out" [fileW] 0).2.2.2 0 fileW rfl⟩

theorem registerFrom_countPC (env : Env) (config : ComicConfig) (out : String)
    (files : List PathBuf) (k : Nat) :
    ((registerFrom env config out k files).1).countP Event.isPC = 0 := by
  rw [List.countP_eq_zero]
  intro e he
  simp [registerFrom_noPC env config out files k e he]

theorem workerEvents_countPC (env : Env) (config : ComicConfig)
    (comics : List Comic) :
    (((comics.map (processOne env config)).flatMap
       (fun r => r.2.1)).countP Event.isPC) = 0 := by
  rw [List.countP_eq_zero]
  intro e he
  obtain ⟨cm, _, u, hu⟩ := workerEvents_mem env config comics e he
  rw [hu]
  simp [Event.isPC]

theorem hasTerminalFor_flatMap (env : Env) (config : ComicConfig)
    (comics : List Comic) (cm : Comic) (i : Nat) (hcm : cm ∈ comics)
    (h : hasTerminalFor i (processOne env config cm).2.1) :
    hasTerminalFor i
      ((comics.map (processOne env config)).flatMap (fun r => r.2.1)) := by
  obtain ⟨s, hs, hm⟩ := h
  exact ⟨s, hs, List.mem_flatMap.mpr ⟨processOne env config cm,
    List.mem_map_of_mem _ hcm, hm⟩⟩

/-- C1: whenever a batch completes (for Mobi: the supervisor loop exits
within the fuel budget; for Cbz/Epub: always), the trace is some prefix
followed by a single `ProcessingComplete` — no other `ProcessingComplete`
occurs — every registered id has reached a terminal status within that
prefix, and an empty input list produces the bare completion event (zero
registrations). -/
theorem C1_single_completion_after_terminal (env : Env) (config : ComicConfig)
    (out : String) (files : List PathBuf) (fuel : Nat)
    (hdone : (batchRun env config out files fuel).2 = true) :
    ∃ pre, (batchRun env config out files fuel).1 =
        pre ++ [.Progress .ProcessingComplete] ∧
      pre.countP Event.isPC = 0 ∧
      (∀ i, i < files.length → hasTerminalFor i pre) ∧
      (files = [] → pre = []) := by
  by_cases hfc : config.output_format = .Mobi
  · rw [batchRun_eq_mobi env config out files fuel hfc] at hdone ⊢
    simp only at hdone ⊢
    rw [kindlegenThread_exit_flag] at hdone
    rw [kindlegenThread_exited env _ 0 fuel hdone]
    refine ⟨(registerPass env config out files).1 ++
      (((registerPass env config out files).2.map (processOne env config)).flatMap
        (fun r => r.2.1)) ++
      (supRunN env
        (batchArrive (((registerPass env config out files).2.map
           (processOne env config)).filterMap (fun r => r.2.2))) 0 fuel 0
        SupState.init).2.1, ?_, ?_, ?_, ?_⟩
    · simp [List.append_assoc]
    · have h1 : List.countP Event.isPC (registerPass env config out files).1 = 0 :=
        registerFrom_countPC env config out files 0
      rw [List.countP_append, List.countP_append, h1,
        workerEvents_countPC env config, supRunN_noPC]
    · intro i hi
      have hf : files[i]? = some files[i] := List.getElem?_eq_getElem hi
      cases hnew : env.comic_new i with
      | error e =>
          apply hasTerminalFor_appendL
          apply hasTerminalFor_appendL
          have hft := registerFrom_failed_terminal env config out files 0 i
            files[i] e hf (by rw [Nat.zero_add]; exact hnew)
          rw [Nat.zero_add] at hft
          exact hft
      | ok u =>
          cases u
          have hmem := registerFrom_comics_mem env config out files 0 i files[i]
            hf (by rw [Nat.zero_add]; exact hnew)
          rw [Nat.zero_add] at hmem
          rcases (processOne_cases env config
              (Comic.new i files[i] out (titleOf files[i]) config) rfl).2 hfc with
            ⟨htm, _⟩ | ⟨c', hsent, hid, ht⟩
          · apply hasTerminalFor_appendL
            apply hasTerminalFor_appendR
            exact hasTerminalFor_flatMap env config _ _ i hmem htm
          · have hcsent : c' ∈ ((registerPass env config out files).2.map
                (processOne env config)).filterMap (fun r => r.2.2) :=
              List.mem_filterMap.mpr
                ⟨processOne env config
                   (Comic.new i files[i] out (titleOf files[i]) config),
                 List.mem_map_of_mem _ hmem, hsent⟩
            have hterm := (supRunN_terminal env
              (batchArrive (((registerPass env config out files).2.map
                 (processOne env config)).filterMap (fun r => r.2.2))) 0 fuel 0
              SupState.init (fun m hm => batchArrive_pos _ m hm) hdone).2 c'
              (by rw [batchArrive_zero]; exact hcsent) ht
            rw [hid] at hterm
            exact hasTerminalFor_appendR _ hterm
    · intro hnil
      subst hnil
      cases fuel with
      | zero => simp [supRunN] at hdone
      | succ k => rfl
  · rw [batchRun_eq_other env config out files fuel hfc]
    simp only
    refine ⟨(registerPass env config out files).1 ++
      (((registerPass env config out files).2.map (processOne env config)).flatMap
        (fun r => r.2.1)), rfl, ?_, ?_, ?_⟩
    · have h1 : List.countP Event.isPC (registerPass env config out files).1 = 0 :=
        registerFrom_countPC env config out files 0
      rw [List.countP_append, h1, workerEvents_countPC env config]
    · intro i hi
      have hf : files[i]? = some files[i] := List.getElem?_eq_getElem hi
      cases hnew : env.comic_new i with
      | error e =>
          apply hasTerminalFor_appendL
          have hft := registerFrom_failed_terminal env config out files 0 i
            files[i] e hf (by rw [Nat.zero_add]; exact hnew)
          rw [Nat.zero_add] at hft
          exact hft
      | ok u =>
          cases u
          have hmem := registerFrom_comics_mem env config out files 0 i files[i]
            hf (by rw [Nat.zero_add]; exact hnew)
          rw [Nat.zero_add] at hmem
          apply hasTerminalFor_appendR
          exact hasTerminalFor_flatMap env config _ _ i hmem
            ((processOne_cases env config
              (Comic.new i files[i] out (titleOf files[i]) config) rfl).1 hfc)
    · intro hnil
      subst hnil
      rfl

theorem C1_witness :
    ∃ pre, (batchRun envW ⟨OutputFormat.Cbz⟩ "out" [] 0).1 =
        pre ++ [.Progress .ProcessingComplete] ∧
      pre.countP Event.isPC = 0 ∧
      (∀ i, i < ([] : List PathBuf).length → hasTerminalFor i pre) ∧
      (([] : List PathBuf) = [] → pre = []) :=
  C1_single_completion_after_terminal envW ⟨OutputFormat.Cbz⟩ "out" [] 0 rfl

theorem C6_witness :
    (processOne envW ⟨OutputFormat.Mobi⟩ comicMobi).2.2.isSome = true ∧
    noSuccessIn (processOne envW ⟨OutputFormat.Mobi⟩ comicMobi).2.1 ∧
    (processOne envW ⟨OutputFormat.Cbz⟩ comicCbz).2.2 = none := by
  have h := C6_mobi_enqueue_no_success envW ⟨OutputFormat.Mobi⟩ comicMobi rfl
  have h2 := (h.2 rfl)
  refine ⟨h2.1.mpr ⟨⟨2, rfl⟩, ⟨["page1.jpg", "page2.jpg"], rfl⟩, rfl⟩, h2.2.1, ?_⟩
  exact (C6_mobi_enqueue_no_success envW ⟨OutputFormat.Cbz⟩ comicCbz rfl).1
    (by decide)

end Comically
